import Mathlib

/-!
Verification of the persistence / account-ledger core of `banking_now_app.py`.

The Python source is shallowly embedded as follows:

* Python strings are `Str := List Char`; `str.split`, `str.strip` and
  `str.join` are implemented on `List Char` with the semantics of the
  Python builtins (for the concrete delimiters used by the program).
* Python `float` currency values are idealized as `ℚ`; `str(float x)` /
  `float(s)` are modelled by an exact decimal printer/parser for rationals
  with a finite decimal expansion (every value the program actually
  produces prints as a plain finite decimal).
* The JSON blob that `_serialize_account` embeds via `json.dumps` /
  `json.loads` is modelled by a `JVal` value type together with an
  executable dumper and a fuel-indexed recursive-descent parser covering
  the JSON fragment the program reads and writes.
* The global mutable tables `users` / `accounts` are association lists
  keyed by `Str` (Python `dict` with unique keys and insertion order);
  `next_account_number` is a `Nat`.  Every mutating operation of the
  source becomes a pure function from the state (plus the values the
  interactive prompts would supply: amounts, timestamps, the chosen
  account) to the new state and an outcome mirroring the print paths.
-/

/-- Python strings, as lists of characters. -/
abbrev Str := List Char

/-! ## Splitting, joining and stripping (Python `str.split` / `join` / `strip`) -/

/-- Prepend a character to the first piece of a split result. -/
def consHead (c : Char) : List Str → List Str
  | [] => [[c]]
  | t :: ts => (c :: t) :: ts

/-- `s.split("|~|")`: split on each leftmost non-overlapping occurrence of
the three-character field delimiter `DATA_DELIMITER = "|~|"`. -/
def splitData : Str → List Str
  | [] => [[]]
  | [c] => [[c]]
  | [c, d] => [[c, d]]
  | c :: d :: e :: r =>
    if c = '|' ∧ d = '~' ∧ e = '|' then [] :: splitData r
    else consHead c (splitData (d :: e :: r))

/-- `s.split(sep)` for a single-character separator (the program uses
`";"` for owned-account lists; `"."` appears in decimal parsing). -/
def splitCh (sep : Char) : Str → List Str
  | [] => [[]]
  | c :: r => if c = sep then [] :: splitCh sep r else consHead c (splitCh sep r)

/-- `sep.join(pieces)` for an arbitrary separator string. -/
def joinSep (sep : Str) : List Str → Str
  | [] => []
  | [f] => f
  | f :: g :: rest => f ++ sep ++ joinSep sep (g :: rest)

/-- `DATA_DELIMITER.join(fields)` (`"|~|"`). -/
def joinData (fields : List Str) : Str := joinSep ['|', '~', '|'] fields

/-- `LIST_DELIMITER.join(items)` (`";"`). -/
def joinList (items : List Str) : Str := joinSep [';'] items

/-- Drop leading whitespace (one side of Python `str.strip()`). -/
def lstrip : Str → Str
  | [] => []
  | c :: r => if c.isWhitespace then lstrip r else c :: r

/-- Python `str.strip()`: drop leading and trailing whitespace. -/
def stripStr (s : Str) : Str := ((lstrip ((lstrip s).reverse)).reverse)

/-! ## Decimal digits (`str(int)` / `int(str)` building blocks) -/

/-- Value of a decimal digit character. -/
def digitVal (c : Char) : Nat := c.toNat - 48

/-- Numeric value of a string of decimal digits (most significant first). -/
def digitsToNat (s : Str) : Nat := s.foldl (fun a c => a * 10 + digitVal c) 0

/-- Decimal digits of `n`, least significant first; `fuel`-indexed so that
the definition is structurally recursive (and hence kernel-evaluable).
`fuel = n + 1` always suffices. -/
def natDigitsRev : Nat → Nat → Str
  | 0, _ => []
  | f + 1, n =>
    if n < 10 then [Nat.digitChar n]
    else Nat.digitChar (n % 10) :: natDigitsRev f (n / 10)

/-- `str(n)` for a natural number `n`. -/
def natToStr (n : Nat) : Str := (natDigitsRev (n + 1) n).reverse

/-- `str(n)` left-padded with zeros to width `w` (used to print the
fractional part of a decimal). -/
def natToStrPad (w n : Nat) : Str :=
  List.replicate (w - (natToStr n).length) '0' ++ natToStr n

/-! ### Lemmas about splitting -/

theorem consHead_ne_nil (c : Char) (l : List Str) : consHead c l ≠ [] := by
  cases l <;> simp [consHead]

theorem splitData_nil : splitData [] = [[]] := rfl

/-- The defining equation of `splitData` on strings of length at least 3. -/
theorem splitData_cons3 (c d e : Char) (r : Str) :
    splitData (c :: d :: e :: r) =
      if c = '|' ∧ d = '~' ∧ e = '|' then [] :: splitData r
      else consHead c (splitData (d :: e :: r)) := rfl

theorem splitData_delim (r : Str) :
    splitData ('|' :: '~' :: '|' :: r) = [] :: splitData r := by
  rw [splitData_cons3]
  simp

theorem splitData_cons_ne (c : Char) (r : Str) (h : c ≠ '|') :
    splitData (c :: r) = consHead c (splitData r) := by
  rcases r with _ | ⟨d, _ | ⟨e, r'⟩⟩
  · rfl
  · rfl
  · rw [splitData_cons3]
    simp [h]

theorem splitCh_nil (sep : Char) : splitCh sep [] = [[]] := rfl

theorem splitCh_cons_eq (sep : Char) (r : Str) :
    splitCh sep (sep :: r) = [] :: splitCh sep r := by
  rw [splitCh.eq_def]; simp

theorem splitCh_cons_ne (sep c : Char) (r : Str) (h : c ≠ sep) :
    splitCh sep (c :: r) = consHead c (splitCh sep r) := by
  rw [splitCh.eq_def]; simp [h]

theorem splitData_ne_nil (s : Str) : splitData s ≠ [] := by
  rcases s with _ | ⟨c, _ | ⟨d, _ | ⟨e, r⟩⟩⟩
  · simp [splitData]
  · simp [splitData]
  · simp [splitData]
  · rw [splitData_cons3]
    split
    · simp
    · exact consHead_ne_nil _ _

theorem splitCh_ne_nil (sep : Char) (s : Str) : splitCh sep s ≠ [] := by
  cases s with
  | nil => simp [splitCh]
  | cons c r =>
    by_cases hc : c = sep
    · subst hc; rw [splitCh_cons_eq]; simp
    · rw [splitCh_cons_ne sep c r hc]; exact consHead_ne_nil _ _

/-- A string with no occurrence of `'|'` is a single field. -/
theorem splitData_no_pipe (f : Str) (h : ∀ c ∈ f, c ≠ '|') :
    splitData f = [f] := by
  induction f with
  | nil => rfl
  | cons c r ih =>
    have hc : c ≠ '|' := h c (List.mem_cons_self c r)
    rw [splitData_cons_ne c r hc, ih (fun x hx => h x (List.mem_cons_of_mem c hx))]
    rfl

/-- Key splitting lemma: a pipe-free field followed by the delimiter
splits off exactly. -/
theorem splitData_field (f : Str) (h : ∀ c ∈ f, c ≠ '|') (t : Str) :
    splitData (f ++ '|' :: '~' :: '|' :: t) = f :: splitData t := by
  induction f with
  | nil => simpa using splitData_delim t
  | cons c r ih =>
    have hc : c ≠ '|' := h c (List.mem_cons_self c r)
    rw [List.cons_append, splitData_cons_ne c _ hc,
      ih (fun x hx => h x (List.mem_cons_of_mem c hx))]
    rfl

/-- A separator-free piece followed by the separator splits off exactly. -/
theorem splitCh_piece (sep : Char) (f : Str) (h : ∀ c ∈ f, c ≠ sep) (t : Str) :
    splitCh sep (f ++ sep :: t) = f :: splitCh sep t := by
  induction f with
  | nil => simpa using splitCh_cons_eq sep t
  | cons c r ih =>
    have hc : c ≠ sep := h c (List.mem_cons_self c r)
    rw [List.cons_append, splitCh_cons_ne sep c _ hc,
      ih (fun x hx => h x (List.mem_cons_of_mem c hx))]
    rfl

theorem splitCh_no_sep (sep : Char) (f : Str) (h : ∀ c ∈ f, c ≠ sep) :
    splitCh sep f = [f] := by
  induction f with
  | nil => rfl
  | cons c r ih =>
    have hc : c ≠ sep := h c (List.mem_cons_self c r)
    rw [splitCh_cons_ne sep c r hc, ih (fun x hx => h x (List.mem_cons_of_mem c hx))]
    rfl

/-- Splitting the join of pipe-free fields recovers the fields. -/
theorem splitData_joinData (fields : List Str) (hne : fields ≠ [])
    (h : ∀ f ∈ fields, ∀ c ∈ f, c ≠ '|') :
    splitData (joinData fields) = fields := by
  induction fields with
  | nil => cases hne rfl
  | cons f rest ih =>
    rcases rest with _ | ⟨g, rest'⟩
    · simpa [joinData, joinSep] using splitData_no_pipe f (h f (List.mem_cons_self f _))
    · have hj : joinData (f :: g :: rest') = f ++ '|' :: '~' :: '|' :: joinData (g :: rest') := by
        simp [joinData, joinSep]
      rw [hj, splitData_field f (h f (List.mem_cons_self f _)) _,
        ih (by simp) (fun x hx c hc => h x (List.mem_cons_of_mem f hx) c hc)]

/-- Splitting the join of separator-free pieces recovers the pieces. -/
theorem splitCh_joinSep (sep : Char) (pieces : List Str) (hne : pieces ≠ [])
    (h : ∀ f ∈ pieces, ∀ c ∈ f, c ≠ sep) :
    splitCh sep (joinSep [sep] pieces) = pieces := by
  induction pieces with
  | nil => cases hne rfl
  | cons f rest ih =>
    rcases rest with _ | ⟨g, rest'⟩
    · simpa [joinSep] using splitCh_no_sep sep f (h f (List.mem_cons_self f _))
    · have hj : joinSep [sep] (f :: g :: rest') = f ++ sep :: joinSep [sep] (g :: rest') := by
        simp [joinSep]
      rw [hj, splitCh_piece sep f (h f (List.mem_cons_self f _)) _,
        ih (by simp) (fun x hx c hc => h x (List.mem_cons_of_mem f hx) c hc)]

/-! ### Lemmas about stripping -/

theorem lstrip_of_head_not_ws (s : Str)
    (h : match s with | [] => True | c :: _ => c.isWhitespace = false) :
    lstrip s = s := by
  cases s with
  | nil => rfl
  | cons c r => simp only [lstrip]; simp_all

/-- A string whose first and last characters are not whitespace is fixed
by `strip`. -/
theorem stripStr_eq_self (s : Str)
    (h1 : match s with | [] => True | c :: _ => c.isWhitespace = false)
    (h2 : match s.reverse with | [] => True | c :: _ => c.isWhitespace = false) :
    stripStr s = s := by
  unfold stripStr
  rw [lstrip_of_head_not_ws s h1, lstrip_of_head_not_ws s.reverse h2, List.reverse_reverse]

/-! ### Lemmas about decimal digits -/

theorem char_ne_of_toNat_ne {c x : Char} (h : c.toNat ≠ x.toNat) : c ≠ x :=
  fun he => h (by rw [he])

theorem isDigit_toNat (c : Char) (h : c.isDigit = true) :
    48 ≤ c.toNat ∧ c.toNat ≤ 57 := by
  simp [Char.isDigit, Char.le_def] at h
  exact h

theorem not_ws_of_ge48 (c : Char) (h : 48 ≤ c.toNat) : c.isWhitespace = false := by
  rcases hw : c.isWhitespace with _ | _
  · rfl
  · exfalso
    simp [Char.isWhitespace] at hw
    rcases hw with ((h1 | h1) | h1) | h1 <;> (subst h1; exact absurd h (by decide))

theorem isDigit_not_ws (c : Char) (h : c.isDigit = true) : c.isWhitespace = false :=
  not_ws_of_ge48 c (isDigit_toNat c h).1

theorem digitChar_isDigit (d : Nat) (h : d < 10) : (Nat.digitChar d).isDigit = true := by
  interval_cases d <;> rfl

theorem digitVal_digitChar (d : Nat) (h : d < 10) : digitVal (Nat.digitChar d) = d := by
  interval_cases d <;> rfl

theorem digitsToNat_foldl (s : Str) (acc : Nat) :
    s.foldl (fun a c => a * 10 + digitVal c) acc =
      acc * 10 ^ s.length + digitsToNat s := by
  induction s generalizing acc with
  | nil => simp [digitsToNat]
  | cons c r ih =>
    simp only [List.foldl_cons, List.length_cons, digitsToNat]
    rw [ih (acc * 10 + digitVal c), ih (0 * 10 + digitVal c)]
    ring

theorem digitsToNat_append (a b : Str) :
    digitsToNat (a ++ b) = digitsToNat a * 10 ^ b.length + digitsToNat b := by
  simp only [digitsToNat, List.foldl_append]
  rw [digitsToNat_foldl]
  rfl

theorem digitsToNat_singleton (c : Char) : digitsToNat [c] = digitVal c := by
  simp [digitsToNat]

theorem digitsToNat_zeros (k : Nat) (s : Str) :
    digitsToNat (List.replicate k '0' ++ s) = digitsToNat s := by
  rw [digitsToNat_append]
  have : digitsToNat (List.replicate k '0') = 0 := by
    induction k with
    | zero => rfl
    | succ n ih =>
      rw [List.replicate_succ]
      simp only [digitsToNat, List.foldl_cons] at *
      simpa [digitVal] using ih
  simp [this]

theorem natDigitsRev_spec (fuel : Nat) : ∀ n < fuel,
    digitsToNat (natDigitsRev fuel n).reverse = n ∧
    (∀ c ∈ natDigitsRev fuel n, c.isDigit = true) ∧
    natDigitsRev fuel n ≠ [] := by
  induction fuel with
  | zero => intro n hn; omega
  | succ f ih =>
    intro n hn
    by_cases h10 : n < 10
    · refine ⟨?_, ?_, ?_⟩
      · simp [natDigitsRev, h10, digitsToNat_singleton, digitVal_digitChar n h10]
      · simp only [natDigitsRev, if_pos h10]
        intro c hc
        simp at hc
        subst hc
        exact digitChar_isDigit n h10
      · simp [natDigitsRev, h10]
    · have hdiv : n / 10 < f := by omega
      obtain ⟨ihv, ihd, _⟩ := ih (n / 10) hdiv
      refine ⟨?_, ?_, ?_⟩
      · simp only [natDigitsRev, if_neg h10, List.reverse_cons]
        rw [digitsToNat_append, ihv]
        simp [digitsToNat_singleton, digitVal_digitChar (n % 10) (Nat.mod_lt n (by omega))]
        omega
      · simp only [natDigitsRev, if_neg h10]
        intro c hc
        rcases List.mem_cons.mp hc with hc | hc
        · subst hc; exact digitChar_isDigit _ (Nat.mod_lt n (by omega))
        · exact ihd c hc
      · simp [natDigitsRev, h10]

theorem digitsToNat_natToStr (n : Nat) : digitsToNat (natToStr n) = n :=
  (natDigitsRev_spec (n + 1) n (Nat.lt_succ_self n)).1

theorem natToStr_all_digits (n : Nat) : ∀ c ∈ natToStr n, c.isDigit = true := by
  intro c hc
  exact (natDigitsRev_spec (n + 1) n (Nat.lt_succ_self n)).2.1 c (List.mem_reverse.mp hc)

theorem natToStr_ne_nil (n : Nat) : natToStr n ≠ [] := by
  have := (natDigitsRev_spec (n + 1) n (Nat.lt_succ_self n)).2.2
  simpa [natToStr] using this

theorem natToStr_injective : Function.Injective natToStr := by
  intro a b h
  have := digitsToNat_natToStr a
  rw [h, digitsToNat_natToStr] at this
  omega

theorem natDigitsRev_length_le (fuel : Nat) : ∀ n < fuel, ∀ e : Nat, 1 ≤ e →
    n < 10 ^ e → (natDigitsRev fuel n).length ≤ e := by
  induction fuel with
  | zero => intro n hn; omega
  | succ f ih =>
    intro n hn e he hne
    by_cases h10 : n < 10
    · simp [natDigitsRev, h10]
      omega
    · simp only [natDigitsRev, if_neg h10, List.length_cons]
      have he2 : 2 ≤ e := by
        by_contra hc
        have : e = 1 := by omega
        subst this
        simp at hne
        omega
      have hdiv : n / 10 < 10 ^ (e - 1) := by
        have h1 : 10 ^ e = 10 ^ (e - 1) * 10 := by
          conv_lhs => rw [show e = e - 1 + 1 by omega]
          ring
        rw [Nat.div_lt_iff_lt_mul (by omega)]
        omega
      have := ih (n / 10) (by omega) (e - 1) (by omega) hdiv
      omega

theorem natToStr_length_le (n e : Nat) (he : 1 ≤ e) (h : n < 10 ^ e) :
    (natToStr n).length ≤ e := by
  simpa [natToStr] using natDigitsRev_length_le (n + 1) n (Nat.lt_succ_self n) e he h

theorem natToStrPad_length (w n : Nat) (hw : 1 ≤ w) (h : n < 10 ^ w) :
    (natToStrPad w n).length = w := by
  have hle := natToStr_length_le n w hw h
  simp [natToStrPad]
  omega

theorem natToStrPad_val (w n : Nat) : digitsToNat (natToStrPad w n) = n := by
  rw [natToStrPad, digitsToNat_zeros, digitsToNat_natToStr]

theorem natToStrPad_all_digits (w n : Nat) :
    ∀ c ∈ natToStrPad w n, c.isDigit = true := by
  intro c hc
  rcases List.mem_append.mp hc with hc | hc
  · rw [List.eq_of_mem_replicate hc]; rfl
  · exact natToStr_all_digits n c hc

/-! ## Decimal representation of currency values

Python `float` currency values are idealized as rationals.  `str(float x)`
is modelled by `ratToDecStr` (sign, integer part, `'.'`, fractional part —
always at least one fractional digit, as Python prints e.g. `100.0`), and
`float(s)` by `parseFloat` (optional sign, digits with an optional decimal
point; exponent forms and `inf`/`nan` are outside the fragment the program
produces).  The printer is exact on rationals with a finite decimal
expansion, which covers every value of the idealized program. -/

/-- Multiplicity of `p` in `n` (fuel-indexed, structurally recursive;
`fuel = n` suffices). -/
def padicCountFuel : Nat → Nat → Nat → Nat
  | 0, _, _ => 0
  | f + 1, p, n => if 2 ≤ p ∧ n % p = 0 ∧ n ≠ 0 then padicCountFuel f p (n / p) + 1 else 0

/-- Number of decimal digits needed after the point for `q` (at least 1,
mirroring Python's `str(float)` which always prints a fractional digit). -/
def decExp (q : ℚ) : Nat :=
  max 1 (max (padicCountFuel q.den 2 q.den) (padicCountFuel q.den 5 q.den))

/-- `q` has a finite decimal expansion (its denominator divides `10 ^ decExp q`).
This holds for every value the idealized program produces. -/
def isFiniteDec (q : ℚ) : Bool := 10 ^ decExp q % q.den == 0

/-- `str(float q)`: exact plain-decimal rendering of `q`. -/
def ratToDecStr (q : ℚ) : Str :=
  let e := decExp q
  let m := (q * (10 : ℚ) ^ e).num
  let n := m.natAbs
  (if m < 0 then ['-'] else []) ++ natToStr (n / 10 ^ e) ++ '.' :: natToStrPad e (n % 10 ^ e)

/-- Are all characters decimal digits? -/
def allDigits (s : Str) : Bool := s.all Char.isDigit

/-- Parse an unsigned decimal numeral (digits with an optional point). -/
def parseDec (s : Str) : Option ℚ :=
  match splitCh '.' s with
  | [a] => if !a.isEmpty && allDigits a then some (digitsToNat a) else none
  | [a, b] =>
    if (!a.isEmpty || !b.isEmpty) && allDigits a && allDigits b then
      some ((digitsToNat a : ℚ) + (digitsToNat b : ℚ) / (10 : ℚ) ^ b.length)
    else none
  | _ => none

/-- Python `float(s)` on the decimal fragment: strip, optional sign,
unsigned decimal numeral; `none` models `ValueError`. -/
def parseFloat (s : Str) : Option ℚ :=
  match stripStr s with
  | [] => none
  | c :: r =>
    if c = '-' then (parseDec r).map (fun x => -x)
    else if c = '+' then parseDec r
    else parseDec (c :: r)

/-! ### Round-trip of the decimal codec -/

theorem den_dvd_of_isFiniteDec (q : ℚ) (h : isFiniteDec q = true) :
    q.den ∣ 10 ^ decExp q := by
  simp only [isFiniteDec, beq_iff_eq] at h
  exact Nat.dvd_of_mod_eq_zero h

theorem num_mul_den_eq (q : ℚ) : (q.num : ℚ) = q * (q.den : ℚ) := by
  have hd : (q.den : ℚ) ≠ 0 := Nat.cast_ne_zero.mpr q.den_nz
  exact (div_eq_iff hd).mp (Rat.num_div_den q)

/-- Under `isFiniteDec`, `q * 10 ^ decExp q` is an integer, namely its own
numerator. -/
theorem mul_pow_eq_num (q : ℚ) (h : isFiniteDec q = true) :
    ((q * (10 : ℚ) ^ decExp q).num : ℚ) = q * (10 : ℚ) ^ decExp q := by
  obtain ⟨c, hc⟩ := den_dvd_of_isFiniteDec q h
  have key : q * (10 : ℚ) ^ decExp q = ((q.num * c : ℤ) : ℚ) := by
    have h10 : ((10 : ℚ) ^ decExp q) = ((10 ^ decExp q : ℕ) : ℚ) := by push_cast; ring
    rw [h10, hc]
    push_cast
    rw [← mul_assoc, ← num_mul_den_eq q]
  rw [key, Rat.intCast_num]

theorem pad_ne_nil (w n : Nat) (hw : 1 ≤ w) (hn : n < 10 ^ w) :
    natToStrPad w n ≠ [] := by
  intro he
  have := natToStrPad_length w n hw hn
  rw [he] at this
  simp at this
  omega

/-- `parseDec` recovers the value of `natToStr a ++ '.' :: natToStrPad e b`. -/
theorem parseDec_print (a b e : Nat) (he : 1 ≤ e) (hb : b < 10 ^ e) :
    parseDec (natToStr a ++ '.' :: natToStrPad e b) =
      some ((a : ℚ) + (b : ℚ) / (10 : ℚ) ^ e) := by
  have hnd : ∀ c ∈ natToStr a, c ≠ '.' := by
    intro c hc
    exact char_ne_of_toNat_ne (by
      have := isDigit_toNat c (natToStr_all_digits a c hc)
      intro hne
      rw [show ('.' : Char).toNat = 46 from rfl] at hne
      omega)
  have hnd2 : ∀ c ∈ natToStrPad e b, c ≠ '.' := by
    intro c hc
    exact char_ne_of_toNat_ne (by
      have := isDigit_toNat c (natToStrPad_all_digits e b c hc)
      intro hne
      rw [show ('.' : Char).toNat = 46 from rfl] at hne
      omega)
  have hsplit : splitCh '.' (natToStr a ++ '.' :: natToStrPad e b) =
      [natToStr a, natToStrPad e b] := by
    rw [splitCh_piece '.' _ hnd _, splitCh_no_sep '.' _ hnd2]
  rw [parseDec, hsplit]
  have hada : allDigits (natToStr a) = true := by
    simp only [allDigits, List.all_eq_true]
    intro c hc
    exact natToStr_all_digits a c hc
  have hadb : allDigits (natToStrPad e b) = true := by
    simp only [allDigits, List.all_eq_true]
    intro c hc
    exact natToStrPad_all_digits e b c hc
  have hane : (natToStr a).isEmpty = false := by
    rcases h : natToStr a with _ | ⟨c, r⟩
    · exact absurd h (natToStr_ne_nil a)
    · rfl
  split
  · simp_all
  · next a' b' heq =>
    obtain ⟨ha', hb'⟩ : a' = natToStr a ∧ b' = natToStrPad e b := by
      constructor <;> (injection heq with h1 h2; try exact h1.symm)
      injection h2 with h3 h4
      exact h3.symm
    subst ha'
    subst hb'
    rw [hada, hadb, hane]
    simp only [Bool.not_false, Bool.true_or, Bool.true_and, if_pos]
    rw [digitsToNat_natToStr, natToStrPad_val, natToStrPad_length e b he hb]
  · simp_all

theorem digit_head_not_sign (c : Char) (h : c.isDigit = true) :
    c ≠ '-' ∧ c ≠ '+' ∧ c.isWhitespace = false := by
  have := isDigit_toNat c h
  refine ⟨char_ne_of_toNat_ne ?_, char_ne_of_toNat_ne ?_, isDigit_not_ws c h⟩
  · rw [show ('-' : Char).toNat = 45 from rfl]; omega
  · rw [show ('+' : Char).toNat = 43 from rfl]; omega

theorem parseFloat_cons (c : Char) (r : Str) (hws : stripStr (c :: r) = c :: r) :
    parseFloat (c :: r) =
      if c = '-' then (parseDec r).map (fun x => -x)
      else if c = '+' then parseDec r
      else parseDec (c :: r) := by
  rw [parseFloat, hws]

/-- The decimal codec round-trips on every finite-decimal rational:
`float(str(float q)) == q` in the idealization. -/
theorem parseFloat_ratToDecStr (q : ℚ) (h : isFiniteDec q = true) :
    parseFloat (ratToDecStr q) = some q := by
  set e := decExp q with he
  have he1 : 1 ≤ e := le_max_left _ _
  set m := (q * (10 : ℚ) ^ e).num with hm
  set n := m.natAbs with hn
  have hmod : n % 10 ^ e < 10 ^ e := Nat.mod_lt n (Nat.pos_pow_of_pos e (by omega))
  have hpadne := pad_ne_nil e (n % 10 ^ e) he1 hmod
  -- the printed string and the fact that strip is the identity on it
  have hbody : ratToDecStr q =
      (if m < 0 then ['-'] else []) ++ natToStr (n / 10 ^ e) ++ '.' :: natToStrPad e (n % 10 ^ e) := rfl
  -- head and last characters are not whitespace
  obtain ⟨c0, t0, hc0⟩ := List.exists_cons_of_ne_nil (natToStr_ne_nil (n / 10 ^ e))
  have hc0d : c0.isDigit = true := by
    apply natToStr_all_digits (n / 10 ^ e)
    rw [hc0]; exact List.mem_cons_self _ _
  obtain ⟨cl, tl, hcl⟩ := List.exists_cons_of_ne_nil
    (by
      intro hrev
      exact hpadne (by simpa using congrArg List.reverse hrev) :
      (natToStrPad e (n % 10 ^ e)).reverse ≠ [])
  have hcld : cl.isDigit = true := by
    apply natToStrPad_all_digits e (n % 10 ^ e)
    have : cl ∈ (natToStrPad e (n % 10 ^ e)).reverse := by
      rw [hcl]; exact List.mem_cons_self _ _
    exact List.mem_reverse.mp this
  have hrevS : (ratToDecStr q).reverse =
      cl :: (tl ++ ('.' :: (natToStr (n / 10 ^ e)).reverse ++
        (if m < 0 then ['-'] else []).reverse)) := by
    rw [hbody, List.append_assoc]
    rw [List.reverse_append, List.reverse_append, List.reverse_cons]
    simp [hcl]
  have hstrip : stripStr (ratToDecStr q) = ratToDecStr q := by
    apply stripStr_eq_self
    · rw [hbody]
      rcases hmlt : decide (m < 0) with _ | _
      · simp only [decide_eq_false_iff_not] at hmlt
        rw [if_neg hmlt]
        simp only [List.nil_append, hc0, List.cons_append]
        exact isDigit_not_ws c0 hc0d
      · simp only [decide_eq_true_eq] at hmlt
        rw [if_pos hmlt]
        simp
    · rw [hrevS]
      exact isDigit_not_ws cl hcld
  -- the value computed by parseDec
  have h10 : ((10 : ℚ) ^ e) ≠ 0 := by positivity
  have hq : q = (m : ℚ) / (10 : ℚ) ^ e := by
    have := mul_pow_eq_num q h
    rw [← he, ← hm] at this
    field_simp [this]
  have hval : ((n / 10 ^ e : ℕ) : ℚ) + ((n % 10 ^ e : ℕ) : ℚ) / (10 : ℚ) ^ e
      = (n : ℚ) / (10 : ℚ) ^ e := by
    have hNat : (n / 10 ^ e) * 10 ^ e + n % 10 ^ e = n := by
      rw [Nat.mul_comm]
      exact Nat.div_add_mod n (10 ^ e)
    rw [eq_div_iff h10, add_mul, div_mul_cancel₀ _ h10]
    exact_mod_cast hNat
  by_cases hmneg : m < 0
  · -- negative value: the string starts with '-'
    have hS : ratToDecStr q =
        '-' :: (natToStr (n / 10 ^ e) ++ '.' :: natToStrPad e (n % 10 ^ e)) := by
      rw [hbody, if_pos hmneg]
      rfl
    rw [hS]
    rw [parseFloat_cons _ _ (by rw [← hS]; exact hstrip), if_pos rfl,
      parseDec_print _ _ e he1 hmod]
    have hcastm : ((n : ℚ)) = -(m : ℚ) := by
      rw [hn, Int.cast_natAbs, Int.cast_abs]
      exact abs_of_neg (by exact_mod_cast hmneg)
    simp only [Option.map_some']
    rw [hval, hcastm, hq]
    congr 1
    ring
  · -- non-negative value: the string starts with a digit
    push_neg at hmneg
    have hS : ratToDecStr q =
        c0 :: (t0 ++ '.' :: natToStrPad e (n % 10 ^ e)) := by
      rw [hbody, if_neg (not_lt.mpr hmneg), hc0]
      rfl
    obtain ⟨hne1, hne2, _⟩ := digit_head_not_sign c0 hc0d
    rw [hS, parseFloat_cons _ _ (by rw [← hS]; exact hstrip), if_neg hne1, if_neg hne2,
      show c0 :: (t0 ++ '.' :: natToStrPad e (n % 10 ^ e)) =
        natToStr (n / 10 ^ e) ++ '.' :: natToStrPad e (n % 10 ^ e) by rw [hc0]; rfl,
      parseDec_print _ _ e he1 hmod]
    have hcastm : ((n : ℚ)) = (m : ℚ) := by
      rw [hn, Int.cast_natAbs, Int.cast_abs]
      exact abs_of_nonneg (by exact_mod_cast hmneg)
    rw [hval, hcastm, hq]

/-! ## JSON values (`json.dumps` / `json.loads`)

The transaction log is serialized inside an account line as a JSON blob.
`JVal` models the Python values that can round-trip through `json`:
strings, numbers (idealized as `ℚ`; the program only ever stores floats),
booleans, `None`, lists and dicts (as ordered association lists, matching
Python dict insertion order).  `jdump` mirrors `json.dumps` with its
default separators `", "` and `": "`; `jparseVal` is a recursive-descent
parser for this fragment (fuel-indexed to be structurally recursive), and
`json_loads` runs it requiring all input to be consumed, like
`json.loads`.  Exponent number forms, `\uXXXX` escapes, `Infinity`/`NaN`
are outside the fragment the program writes and are modelled as parse
failures. -/

inductive JVal where
  | str (s : Str)
  | num (q : ℚ)
  | bool (b : Bool)
  | null
  | arr (xs : List JVal)
  | obj (ms : List (Str × JVal))

/-- `json.dumps` escaping for one character (the program's data only
needs `\"` and `\\`). -/
def escChar (c : Char) : Str :=
  if c = '"' then ['\\', '"'] else if c = '\\' then ['\\', '\\'] else [c]

def escapeStr : Str → Str
  | [] => []
  | c :: r => escChar c ++ escapeStr r

mutual
/-- `json.dumps(v)` with the default separators. -/
def jdump : JVal → Str
  | .str s => '"' :: escapeStr s ++ ['"']
  | .num q => ratToDecStr q
  | .bool true => ['t', 'r', 'u', 'e']
  | .bool false => ['f', 'a', 'l', 's', 'e']
  | .null => ['n', 'u', 'l', 'l']
  | .arr xs => '[' :: jdumpItems xs ++ [']']
  | .obj ms => '{' :: jdumpMembers ms ++ ['}']
def jdumpItems : List JVal → Str
  | [] => []
  | [x] => jdump x
  | x :: y :: r => jdump x ++ ',' :: ' ' :: jdumpItems (y :: r)
def jdumpMembers : List (Str × JVal) → Str
  | [] => []
  | [(k, v)] => '"' :: escapeStr k ++ '"' :: ':' :: ' ' :: jdump v
  | (k, v) :: m :: r =>
    '"' :: escapeStr k ++ '"' :: ':' :: ' ' :: jdump v ++ ',' :: ' ' :: jdumpMembers (m :: r)
end

/-- JSON string unescaping for one escaped character. -/
def unescChar (c : Char) : Option Char :=
  if c = '"' then some '"'
  else if c = '\\' then some '\\'
  else if c = '/' then some '/'
  else if c = 'n' then some '\n'
  else if c = 't' then some '\t'
  else if c = 'r' then some '\x0d'
  else none

/-- Parse a JSON string body (after the opening quote), returning the
decoded string and the input after the closing quote. -/
def jparseStrAux : Str → Option (Str × Str)
  | [] => none
  | c :: r =>
    if c = '"' then some ([], r)
    else if c = '\\' then
      match r with
      | [] => none
      | e :: r2 =>
        match unescChar e with
        | some u => (jparseStrAux r2).map (fun p => (u :: p.1, p.2))
        | none => none
    else (jparseStrAux r).map (fun p => (c :: p.1, p.2))

/-- Consume an expected literal keyword tail. -/
def chompLit : Str → Str → Option Str
  | [], s => some s
  | _ :: _, [] => none
  | p :: ps, c :: cs => if c = p then chompLit ps cs else none

/-- Parse an unsigned JSON number (digits, optionally `'.'` digits). -/
def jparseNumCore (s : Str) : Option (ℚ × Str) :=
  let ds := s.takeWhile Char.isDigit
  let r1 := s.dropWhile Char.isDigit
  if ds.isEmpty then none
  else
    match r1 with
    | '.' :: r2 =>
      let fs := r2.takeWhile Char.isDigit
      let r3 := r2.dropWhile Char.isDigit
      if fs.isEmpty then none
      else some ((digitsToNat ds : ℚ) + (digitsToNat fs : ℚ) / (10 : ℚ) ^ fs.length, r3)
    | _ => some ((digitsToNat ds : ℚ), r1)

/-- Parse a JSON number (optional leading `'-'`). -/
def jparseNum : Str → Option (ℚ × Str)
  | [] => none
  | c :: r =>
    if c = '-' then (jparseNumCore r).map (fun p => (-p.1, p.2))
    else jparseNumCore (c :: r)

mutual
/-- Parse one JSON value; `fuel` bounds the recursion depth
(`input length + 1` always suffices for inputs the program writes). -/
def jparseVal : Nat → Str → Option (JVal × Str)
  | 0, _ => none
  | f + 1, s0 =>
    match lstrip s0 with
    | [] => none
    | c :: r =>
      if c = '"' then (jparseStrAux r).map (fun p => (JVal.str p.1, p.2))
      else if c = '[' then (jparseItems f true r).map (fun p => (JVal.arr p.1, p.2))
      else if c = '{' then (jparseMembers f true r).map (fun p => (JVal.obj p.1, p.2))
      else if c = 't' then (chompLit ['r', 'u', 'e'] r).map (fun rest => (JVal.bool true, rest))
      else if c = 'f' then (chompLit ['a', 'l', 's', 'e'] r).map (fun rest => (JVal.bool false, rest))
      else if c = 'n' then (chompLit ['u', 'l', 'l'] r).map (fun rest => (JVal.null, rest))
      else (jparseNum (c :: r)).map (fun p => (JVal.num p.1, p.2))
/-- Parse the items of a JSON array after `'['` (`allowEnd` is true until
the first item has been read, so `[]` parses but `[1,]` does not). -/
def jparseItems : Nat → Bool → Str → Option (List JVal × Str)
  | 0, _, _ => none
  | f + 1, allowEnd, s0 =>
    match lstrip s0 with
    | [] => none
    | c :: r =>
      if allowEnd && c = ']' then some ([], r)
      else
        match jparseVal f (c :: r) with
        | none => none
        | some (v, r1) =>
          match lstrip r1 with
          | ']' :: r2 => some ([v], r2)
          | ',' :: r2 => (jparseItems f false r2).map (fun p => (v :: p.1, p.2))
          | _ => none
/-- Parse the members of a JSON object after `'{'`. -/
def jparseMembers : Nat → Bool → Str → Option (List (Str × JVal) × Str)
  | 0, _, _ => none
  | f + 1, allowEnd, s0 =>
    match lstrip s0 with
    | [] => none
    | c :: r =>
      if allowEnd && c = '}' then some ([], r)
      else if c = '"' then
        match jparseStrAux r with
        | none => none
        | some (k, r1) =>
          match lstrip r1 with
          | ':' :: r2 =>
            match jparseVal f r2 with
            | none => none
            | some (v, r3) =>
              match lstrip r3 with
              | '}' :: r4 => some ([(k, v)], r4)
              | ',' :: r4 => (jparseMembers f false r4).map (fun p => ((k, v) :: p.1, p.2))
              | _ => none
          | _ => none
      else none
end

/-- `json.loads(s)`: parse one value and require only whitespace after it. -/
def json_loads (s : Str) : Option JVal :=
  match jparseVal (s.length + 1) s with
  | some (v, rest) => if lstrip rest = [] then some v else none
  | none => none

/-! ### Well-formedness of JSON values

`wfJChar` characterizes the characters appearing in the program's strings
(printable ASCII, no quote/backslash — nothing `json.dumps` would escape —
and no `'|'`, so the blob cannot collide with the field delimiter).
`wfJFuel` is fuel-indexed so that it stays structurally recursive and
kernel-evaluable; any fuel at least the nesting depth works. -/

def wfJChar (c : Char) : Bool :=
  decide (32 ≤ c.toNat) && decide (c.toNat ≤ 126) && !(c = '"') && !(c = '\\') && !(c = '|')

def wfJStr (s : Str) : Bool := s.all wfJChar

def wfJFuel : Nat → JVal → Bool
  | 0, _ => false
  | _ + 1, .str s => wfJStr s
  | _ + 1, .num q => isFiniteDec q
  | _ + 1, .bool _ => true
  | _ + 1, .null => true
  | f + 1, .arr xs => xs.all (wfJFuel f)
  | f + 1, .obj ms => ms.all (fun p => wfJStr p.1 && wfJFuel f p.2)

/-! ### Lemmas about the JSON codec -/

theorem lstrip_not_ws (c : Char) (s : Str) (h : c.isWhitespace = false) :
    lstrip (c :: s) = c :: s := by simp [lstrip, h]

theorem lstrip_ws (c : Char) (s : Str) (h : c.isWhitespace = true) :
    lstrip (c :: s) = lstrip s := by simp [lstrip, h]

theorem escapeStr_eq_self (s : Str) (h : ∀ c ∈ s, c ≠ '"' ∧ c ≠ '\\') :
    escapeStr s = s := by
  induction s with
  | nil => rfl
  | cons c r ih =>
    obtain ⟨h1, h2⟩ := h c (List.mem_cons_self c r)
    simp only [escapeStr, escChar, if_neg h1, if_neg h2]
    rw [ih (fun x hx => h x (List.mem_cons_of_mem c hx))]
    rfl

theorem jparseStrAux_raw (s : Str) (h : ∀ c ∈ s, c ≠ '"' ∧ c ≠ '\\') (rest : Str) :
    jparseStrAux (s ++ '"' :: rest) = some (s, rest) := by
  induction s with
  | nil =>
    rw [List.nil_append, jparseStrAux.eq_def]
    simp
  | cons c r ih =>
    obtain ⟨h1, h2⟩ := h c (List.mem_cons_self c r)
    rw [List.cons_append, jparseStrAux.eq_def]
    simp [h1, h2, ih (fun x hx => h x (List.mem_cons_of_mem c hx))]

theorem wfJStr_props (s : Str) (h : wfJStr s = true) :
    ∀ c ∈ s, c ≠ '"' ∧ c ≠ '\\' ∧ c ≠ '|' := by
  intro c hc
  have hx := List.all_eq_true.mp h c hc
  simp only [wfJChar, Bool.and_eq_true, decide_eq_true_eq, Bool.not_eq_true',
    decide_eq_false_iff_not] at hx
  obtain ⟨⟨⟨⟨ha, hb⟩, h1⟩, h2⟩, h3⟩ := hx
  exact ⟨h1, h2, h3⟩

theorem wfJStr_toNat (s : Str) (h : wfJStr s = true) :
    ∀ c ∈ s, 32 ≤ c.toNat ∧ c.toNat ≤ 126 := by
  intro c hc
  have hx := List.all_eq_true.mp h c hc
  simp only [wfJChar, Bool.and_eq_true, decide_eq_true_eq, Bool.not_eq_true',
    decide_eq_false_iff_not] at hx
  obtain ⟨⟨⟨⟨ha, hb⟩, h1⟩, h2⟩, h3⟩ := hx
  exact ⟨ha, hb⟩

/-- The rendered decimal starts with `'-'` or a digit. -/
theorem ratToDecStr_head (q : ℚ) :
    ∃ c t, ratToDecStr q = c :: t ∧ (c = '-' ∨ c.isDigit = true) := by
  set e := decExp q
  set m := (q * (10 : ℚ) ^ e).num
  set n := m.natAbs
  by_cases hm : m < 0
  · exact ⟨'-', _, by rw [ratToDecStr, if_pos hm]; rfl, Or.inl rfl⟩
  · obtain ⟨c0, t0, hc0⟩ := List.exists_cons_of_ne_nil (natToStr_ne_nil (n / 10 ^ e))
    refine ⟨c0, t0 ++ '.' :: natToStrPad e (n % 10 ^ e), ?_, Or.inr ?_⟩
    · rw [ratToDecStr, if_neg hm]
      simp only [List.nil_append]
      rw [hc0]
      rfl
    · exact natToStr_all_digits _ c0 (by rw [hc0]; exact List.mem_cons_self _ _)

/-- All characters of the rendered decimal are digits, `'-'` or `'.'`. -/
theorem ratToDecStr_chars (q : ℚ) :
    ∀ c ∈ ratToDecStr q, c.isDigit = true ∨ c = '-' ∨ c = '.' := by
  intro c hc
  rw [ratToDecStr] at hc
  simp only [List.mem_append, List.mem_cons] at hc
  rcases hc with (hc | hc) | hc
  · split at hc
    · simp at hc
      exact Or.inr (Or.inl hc)
    · simp at hc
  · exact Or.inl (natToStr_all_digits _ c hc)
  · rcases hc with hc | hc
    · exact Or.inr (Or.inr hc)
    · exact Or.inl (natToStrPad_all_digits _ _ c hc)

theorem ratToDecStr_ne_nil (q : ℚ) : ratToDecStr q ≠ [] := by
  obtain ⟨c, t, hct, _⟩ := ratToDecStr_head q
  rw [hct]
  simp

/-- Heads of dumped values: never whitespace, and never a structural
character that the parser treats as a terminator. -/
theorem jdump_head (v : JVal) :
    ∃ c t, jdump v = c :: t ∧ c.isWhitespace = false ∧ c ≠ ']' ∧ c ≠ '}' ∧ c ≠ ',' ∧ c ≠ ':' := by
  cases v with
  | str s =>
    exact ⟨'"', escapeStr s ++ ['"'], by rw [jdump, List.cons_append], by decide, by decide,
      by decide, by decide, by decide⟩
  | num q =>
    obtain ⟨c, t, hct, hc⟩ := ratToDecStr_head q
    refine ⟨c, t, by rw [jdump]; exact hct, ?_, ?_, ?_, ?_, ?_⟩
    · rcases hc with hc | hc
      · subst hc; decide
      · exact isDigit_not_ws c hc
    all_goals {
      rcases hc with hc | hc
      · subst hc; decide
      · have := isDigit_toNat c hc
        exact char_ne_of_toNat_ne (by intro hne; rw [hne] at this; revert this; decide)
    }
  | bool b =>
    cases b
    · exact ⟨'f', _, by rw [jdump], by decide, by decide, by decide, by decide, by decide⟩
    · exact ⟨'t', _, by rw [jdump], by decide, by decide, by decide, by decide, by decide⟩
  | null => exact ⟨'n', _, by rw [jdump], by decide, by decide, by decide, by decide, by decide⟩
  | arr xs =>
    exact ⟨'[', jdumpItems xs ++ [']'], by rw [jdump, List.cons_append], by decide, by decide,
      by decide, by decide, by decide⟩
  | obj ms =>
    exact ⟨'{', jdumpMembers ms ++ ['}'], by rw [jdump, List.cons_append], by decide, by decide,
      by decide, by decide, by decide⟩

theorem jdump_ne_nil (v : JVal) : jdump v ≠ [] := by
  obtain ⟨c, t, hct, _⟩ := jdump_head v
  rw [hct]
  simp

/-- Boundary condition after a dumped number: the following character (if
any) must not extend the numeral. -/
def numBound : Str → Prop
  | [] => True
  | c :: _ => c.isDigit = false ∧ c ≠ '.'

/-- The next character (if any) is not a digit. -/
def digBound : Str → Prop
  | [] => True
  | b :: _ => b.isDigit = false

theorem span_digits (A B : Str) (hA : ∀ c ∈ A, c.isDigit = true)
    (hB : digBound B) :
    (A ++ B).takeWhile Char.isDigit = A ∧ (A ++ B).dropWhile Char.isDigit = B := by
  induction A with
  | nil =>
    simp only [List.nil_append]
    cases B with
    | nil => simp
    | cons b t =>
      simp only [digBound] at hB
      constructor
      · simp [List.takeWhile_cons, hB]
      · simp [List.dropWhile_cons, hB]
  | cons a A' ih =>
    have ha : a.isDigit = true := hA a (List.mem_cons_self _ _)
    obtain ⟨ih1, ih2⟩ := ih (fun c hc => hA c (List.mem_cons_of_mem a hc))
    constructor
    · simp [List.takeWhile_cons, ha, ih1]
    · simp [List.dropWhile_cons, ha, ih2]

theorem natToStr_isEmpty (n : Nat) : (natToStr n).isEmpty = false := by
  rcases hh : natToStr n with _ | ⟨c, t⟩
  · exact absurd hh (natToStr_ne_nil n)
  · rfl

theorem pad_isEmpty (w n : Nat) (hw : 1 ≤ w) (hn : n < 10 ^ w) :
    (natToStrPad w n).isEmpty = false := by
  rcases hh : natToStrPad w n with _ | ⟨c, t⟩
  · exact absurd hh (pad_ne_nil w n hw hn)
  · rfl

theorem jparseNumCore_print (I e P : Nat) (he : 1 ≤ e) (hP : P < 10 ^ e) (rest : Str)
    (hrest : numBound rest) :
    jparseNumCore (natToStr I ++ '.' :: (natToStrPad e P ++ rest)) =
      some ((I : ℚ) + (P : ℚ) / (10 : ℚ) ^ e, rest) := by
  obtain ⟨ht1, hd1⟩ := span_digits (natToStr I) ('.' :: (natToStrPad e P ++ rest))
    (natToStr_all_digits I) (by simp [digBound])
  have hBrest : digBound rest := by
    cases rest with
    | nil => trivial
    | cons b t => exact hrest.1
  obtain ⟨ht2, hd2⟩ := span_digits (natToStrPad e P) rest (natToStrPad_all_digits e P) hBrest
  rw [jparseNumCore]
  simp only [ht1, hd1, natToStr_isEmpty, Bool.false_eq_true, if_false, ht2, hd2,
    pad_isEmpty e P he hP, digitsToNat_natToStr, natToStrPad_val,
    natToStrPad_length e P he hP]

/-- The JSON number parser recovers a dumped finite decimal exactly. -/
theorem jparseNum_dump (q : ℚ) (hfd : isFiniteDec q = true) (rest : Str) (hrest : numBound rest) :
    jparseNum (ratToDecStr q ++ rest) = some (q, rest) := by
  set e := decExp q with he
  have he1 : 1 ≤ e := le_max_left _ _
  set m := (q * (10 : ℚ) ^ e).num with hm
  set n := m.natAbs with hn
  have hmod : n % 10 ^ e < 10 ^ e := Nat.mod_lt n (Nat.pos_pow_of_pos e (by omega))
  have h10 : ((10 : ℚ) ^ e) ≠ 0 := by positivity
  have hq : q = (m : ℚ) / (10 : ℚ) ^ e := by
    have := mul_pow_eq_num q hfd
    rw [← he, ← hm] at this
    field_simp [this]
  have hval : ((n / 10 ^ e : ℕ) : ℚ) + ((n % 10 ^ e : ℕ) : ℚ) / (10 : ℚ) ^ e
      = (n : ℚ) / (10 : ℚ) ^ e := by
    have hNat : (n / 10 ^ e) * 10 ^ e + n % 10 ^ e = n := by
      rw [Nat.mul_comm]
      exact Nat.div_add_mod n (10 ^ e)
    rw [eq_div_iff h10, add_mul, div_mul_cancel₀ _ h10]
    exact_mod_cast hNat
  have hcore := jparseNumCore_print (n / 10 ^ e) e (n % 10 ^ e) he1 hmod rest hrest
  by_cases hmneg : m < 0
  · have hS : ratToDecStr q ++ rest =
        '-' :: (natToStr (n / 10 ^ e) ++ '.' :: (natToStrPad e (n % 10 ^ e) ++ rest)) := by
      rw [ratToDecStr, if_pos hmneg, ← he, ← hm, ← hn]
      simp [List.append_assoc]
    rw [hS, jparseNum, if_pos rfl, hcore]
    have hcastm : ((n : ℚ)) = -(m : ℚ) := by
      rw [hn, Int.cast_natAbs, Int.cast_abs]
      exact abs_of_neg (by exact_mod_cast hmneg)
    simp only [Option.map_some']
    rw [hval, hcastm, hq]
    congr 1
    ring
  · push_neg at hmneg
    obtain ⟨c0, t0, hc0⟩ := List.exists_cons_of_ne_nil (natToStr_ne_nil (n / 10 ^ e))
    have hc0d : c0.isDigit = true := by
      apply natToStr_all_digits (n / 10 ^ e)
      rw [hc0]; exact List.mem_cons_self _ _
    have hS : ratToDecStr q ++ rest =
        c0 :: (t0 ++ '.' :: (natToStrPad e (n % 10 ^ e) ++ rest)) := by
      rw [ratToDecStr, if_neg (not_lt.mpr hmneg), ← he, ← hm, ← hn, hc0]
      simp [List.append_assoc]
    obtain ⟨hne1, _, _⟩ := digit_head_not_sign c0 hc0d
    rw [hS, jparseNum, if_neg hne1,
      show c0 :: (t0 ++ '.' :: (natToStrPad e (n % 10 ^ e) ++ rest)) =
        natToStr (n / 10 ^ e) ++ '.' :: (natToStrPad e (n % 10 ^ e) ++ rest) by rw [hc0]; rfl,
      hcore]
    have hcastm : ((n : ℚ)) = (m : ℚ) := by
      rw [hn, Int.cast_natAbs, Int.cast_abs]
      exact abs_of_nonneg (by exact_mod_cast hmneg)
    rw [hval, hcastm, hq]

theorem jparseVal_skip_ws (f : Nat) (c : Char) (s : Str) (h : c.isWhitespace = true) :
    jparseVal (f + 1) (c :: s) = jparseVal (f + 1) s := by
  rw [jparseVal, jparseVal, lstrip_ws c s h]

theorem jparseItems_skip_ws (f : Nat) (ae : Bool) (c : Char) (s : Str)
    (h : c.isWhitespace = true) :
    jparseItems (f + 1) ae (c :: s) = jparseItems (f + 1) ae s := by
  rw [jparseItems, jparseItems, lstrip_ws c s h]

theorem jparseMembers_skip_ws (f : Nat) (ae : Bool) (c : Char) (s : Str)
    (h : c.isWhitespace = true) :
    jparseMembers (f + 1) ae (c :: s) = jparseMembers (f + 1) ae s := by
  rw [jparseMembers, jparseMembers, lstrip_ws c s h]

theorem jdump_len_pos (v : JVal) : 1 ≤ (jdump v).length := by
  obtain ⟨c, t, hct, _⟩ := jdump_head v
  rw [hct]
  simp

theorem jdumpItems_len_cons2 (x y : JVal) (r : List JVal) :
    (jdumpItems (x :: y :: r)).length =
      (jdump x).length + 2 + (jdumpItems (y :: r)).length := by
  rw [show jdumpItems (x :: y :: r) = jdump x ++ ',' :: ' ' :: jdumpItems (y :: r) from by
    rw [jdumpItems]]
  simp
  omega

theorem jdumpItems_mem_le (xs : List JVal) (y : JVal) (hy : y ∈ xs) :
    (jdump y).length ≤ (jdumpItems xs).length := by
  induction xs with
  | nil => cases hy
  | cons x r ih =>
    rcases List.mem_cons.mp hy with hy | hy
    · subst hy
      cases r with
      | nil => rw [show jdumpItems [y] = jdump y from by rw [jdumpItems]]
      | cons z rr => rw [jdumpItems_len_cons2]; omega
    · cases r with
      | nil => cases hy
      | cons z rr =>
        have := ih hy
        rw [jdumpItems_len_cons2]
        omega

theorem jdumpMembers_len_cons2 (k : Str) (v : JVal) (m : Str × JVal) (r : List (Str × JVal)) :
    (jdumpMembers ((k, v) :: m :: r)).length =
      (escapeStr k).length + 4 + (jdump v).length + 2 + (jdumpMembers (m :: r)).length := by
  rw [show jdumpMembers ((k, v) :: m :: r) =
      '"' :: escapeStr k ++ '"' :: ':' :: ' ' :: jdump v ++ ',' :: ' ' :: jdumpMembers (m :: r)
    from by rw [jdumpMembers]]
  simp
  omega

theorem jdumpMembers_len_one (k : Str) (v : JVal) :
    (jdumpMembers [(k, v)]).length = (escapeStr k).length + 4 + (jdump v).length := by
  rw [show jdumpMembers [(k, v)] = '"' :: escapeStr k ++ '"' :: ':' :: ' ' :: jdump v
    from by rw [jdumpMembers]]
  simp
  omega

theorem jdumpMembers_mem_le (ms : List (Str × JVal)) (k : Str) (v : JVal)
    (hp : (k, v) ∈ ms) : (jdump v).length ≤ (jdumpMembers ms).length := by
  induction ms with
  | nil => cases hp
  | cons q r ih =>
    rcases List.mem_cons.mp hp with hq | hq
    · obtain rfl := hq.symm
      cases r with
      | nil => rw [jdumpMembers_len_one]; omega
      | cons m rr => rw [jdumpMembers_len_cons2]; omega
    · obtain ⟨qk, qv⟩ := q
      cases r with
      | nil => cases hq
      | cons m rr =>
        have := ih hq
        rw [jdumpMembers_len_cons2]
        omega


/-- Dispatch equation for `jparseItems` on a non-whitespace head. -/
theorem jparseItems_cons (f : Nat) (ae : Bool) (c : Char) (r : Str)
    (hws : c.isWhitespace = false) :
    jparseItems (f + 1) ae (c :: r) =
      if (ae && decide (c = ']')) = true then some ([], r)
      else
        match jparseVal f (c :: r) with
        | none => none
        | some (v, r1) =>
          match lstrip r1 with
          | ']' :: r2 => some ([v], r2)
          | ',' :: r2 => Option.map (fun p => (v :: p.1, p.2)) (jparseItems f false r2)
          | _ => none := by
  rw [jparseItems, lstrip_not_ws c r hws]

/-- Dispatch equation for `jparseMembers` on a non-whitespace head. -/
theorem jparseMembers_cons (f : Nat) (ae : Bool) (c : Char) (r : Str)
    (hws : c.isWhitespace = false) :
    jparseMembers (f + 1) ae (c :: r) =
      if (ae && decide (c = '}')) = true then some ([], r)
      else if c = '"' then
        match jparseStrAux r with
        | none => none
        | some (k, r1) =>
          match lstrip r1 with
          | ':' :: r2 =>
            match jparseVal f r2 with
            | none => none
            | some (v, r3) =>
              match lstrip r3 with
              | '}' :: r4 => some ([(k, v)], r4)
              | ',' :: r4 => Option.map (fun p => ((k, v) :: p.1, p.2)) (jparseMembers f false r4)
              | _ => none
          | _ => none
      else none := by
  rw [jparseMembers, lstrip_not_ws c r hws]

theorem numBound_cons (c : Char) (s : Str) (h1 : c.isDigit = false) (h2 : c ≠ '.') :
    numBound (c :: s) := ⟨h1, h2⟩

/-- Parsing a dumped well-formed value succeeds and consumes exactly the
dump, for any fuel of at least the dump's length. -/
theorem jparseVal_jdump (N : Nat) :
    ∀ (v : JVal) (fw : Nat), wfJFuel fw v = true → (jdump v).length ≤ N →
    ∀ (rest : Str), numBound rest → ∀ f, (jdump v).length ≤ f →
      jparseVal (f + 1) (jdump v ++ rest) = some (v, rest) := by
  induction N with
  | zero =>
    intro v fw hwf hlen rest hrest f hf
    exact absurd hlen (by have := jdump_len_pos v; omega)
  | succ N ih =>
    intro v fw hwf hlen rest hrest f hf
    cases fw with
    | zero => simp [wfJFuel] at hwf
    | succ fw =>
    cases v with
    | str s =>
      rw [wfJFuel] at hwf
      have hesc : escapeStr s = s :=
        escapeStr_eq_self s (fun c hc =>
          ⟨(wfJStr_props s hwf c hc).1, (wfJStr_props s hwf c hc).2.1⟩)
      have hshape : jdump (.str s) ++ rest = '"' :: (s ++ '"' :: rest) := by
        rw [jdump, hesc]
        simp
      rw [hshape, jparseVal, lstrip_not_ws '"' _ (by decide)]
      simp [jparseStrAux_raw s (fun c hc =>
        ⟨(wfJStr_props s hwf c hc).1, (wfJStr_props s hwf c hc).2.1⟩) rest]
    | num q =>
      rw [wfJFuel] at hwf
      obtain ⟨c, t, hct, hc⟩ := ratToDecStr_head q
      have hnotws : c.isWhitespace = false := by
        rcases hc with hc | hc
        · subst hc; decide
        · exact isDigit_not_ws c hc
      have hne : c ≠ '"' ∧ c ≠ '[' ∧ c ≠ '{' ∧ c ≠ 't' ∧ c ≠ 'f' ∧ c ≠ 'n' := by
        rcases hc with hc | hc
        · subst hc
          refine ⟨by decide, by decide, by decide, by decide, by decide, by decide⟩
        · have := isDigit_toNat c hc
          refine ⟨?_, ?_, ?_, ?_, ?_, ?_⟩ <;>
            exact char_ne_of_toNat_ne (by intro hne; rw [hne] at this; revert this; decide)
      have hshape : jdump (.num q) ++ rest = c :: (t ++ rest) := by
        rw [jdump, hct]
        simp
      rw [hshape, jparseVal, lstrip_not_ws c _ hnotws]
      simp only [if_neg hne.1, if_neg hne.2.1, if_neg hne.2.2.1, if_neg hne.2.2.2.1,
        if_neg hne.2.2.2.2.1, if_neg hne.2.2.2.2.2]
      rw [show c :: (t ++ rest) = ratToDecStr q ++ rest from by rw [hct]; rfl,
        jparseNum_dump q hwf rest hrest]
      rfl
    | bool b =>
      cases b
      · have hshape : jdump (.bool false) ++ rest = 'f' :: 'a' :: 'l' :: 's' :: 'e' :: rest := by
          rw [jdump]; rfl
        rw [hshape, jparseVal, lstrip_not_ws 'f' _ (by decide)]
        simp [chompLit]
      · have hshape : jdump (.bool true) ++ rest = 't' :: 'r' :: 'u' :: 'e' :: rest := by
          rw [jdump]; rfl
        rw [hshape, jparseVal, lstrip_not_ws 't' _ (by decide)]
        simp [chompLit]
    | null =>
      have hshape : jdump .null ++ rest = 'n' :: 'u' :: 'l' :: 'l' :: rest := by
        rw [jdump]; rfl
      rw [hshape, jparseVal, lstrip_not_ws 'n' _ (by decide)]
      simp [chompLit]
    | arr xs =>
      rw [wfJFuel] at hwf
      have hlenarr : (jdump (.arr xs)).length = (jdumpItems xs).length + 2 := by
        rw [jdump]
        simp
      have hlens : ∀ y ∈ xs, (jdump y).length ≤ N := by
        intro y hy
        have h1 := jdumpItems_mem_le xs y hy
        omega
      have hitems : ∀ (ys : List JVal), ys.all (wfJFuel fw) = true →
          (∀ y ∈ ys, (jdump y).length ≤ N) →
          ∀ (g : Nat) (ae : Bool) (rest' : Str), (ys = [] → ae = true) →
            (jdumpItems ys).length + 2 ≤ g →
            jparseItems g ae (jdumpItems ys ++ ']' :: rest') = some (ys, rest') := by
        intro ys
        induction ys with
        | nil =>
          intro _ _ g ae rest' hae hg
          obtain ⟨g', rfl⟩ : ∃ g', g = g' + 1 := ⟨g - 1, by omega⟩
          rw [show jdumpItems ([] : List JVal) ++ ']' :: rest' = ']' :: rest' from by
            rw [jdumpItems]; rfl]
          rw [jparseItems_cons g' ae ']' rest' (by decide), hae rfl]
          simp
        | cons x r ihr =>
          intro hwfys hlys g ae rest' hae hg
          obtain ⟨g', rfl⟩ : ∃ g', g = g' + 1 := ⟨g - 1, by omega⟩
          rw [List.all_cons, Bool.and_eq_true] at hwfys
          obtain ⟨cx, tx, hcx, hcxws, hcxrb, _, _, _⟩ := jdump_head x
          have hxlen : 1 ≤ (jdump x).length := jdump_len_pos x
          cases r with
          | nil =>
            have hleq : jdumpItems [x] = jdump x := by rw [jdumpItems]
            rw [show jdumpItems [x] ++ ']' :: rest' = cx :: (tx ++ ']' :: rest') from by
              rw [hleq, hcx]; rfl]
            rw [jparseItems_cons g' ae cx _ hcxws, if_neg (by simp [hcxrb])]
            obtain ⟨g'', rfl⟩ : ∃ g'', g' = g'' + 1 :=
              ⟨g' - 1, by rw [hleq] at hg; omega⟩
            rw [show cx :: (tx ++ ']' :: rest') = jdump x ++ ']' :: rest' from by
              rw [hcx]; rfl]
            rw [ih x fw hwfys.1 (hlys x (by simp)) (']' :: rest') (numBound_cons _ _ (by decide) (by decide)) g''
              (by rw [hleq] at hg; omega)]
            have hls : lstrip (']' :: rest') = ']' :: rest' := lstrip_not_ws _ _ (by decide)
            simp [hls]
          | cons y rr =>
            have hglen := jdumpItems_len_cons2 x y rr
            rw [show jdumpItems (x :: y :: rr) ++ ']' :: rest' =
                cx :: (tx ++ ',' :: ' ' :: (jdumpItems (y :: rr) ++ ']' :: rest')) from by
              rw [show jdumpItems (x :: y :: rr) =
                  jdump x ++ ',' :: ' ' :: jdumpItems (y :: rr) from by rw [jdumpItems],
                hcx]
              simp]
            rw [jparseItems_cons g' ae cx _ hcxws, if_neg (by simp [hcxrb])]
            obtain ⟨g'', rfl⟩ : ∃ g'', g' = g'' + 1 := ⟨g' - 1, by omega⟩
            rw [show cx :: (tx ++ ',' :: ' ' :: (jdumpItems (y :: rr) ++ ']' :: rest')) =
                jdump x ++ ',' :: ' ' :: (jdumpItems (y :: rr) ++ ']' :: rest') from by
              rw [hcx]; rfl]
            rw [ih x fw hwfys.1 (hlys x (by simp)) _ (numBound_cons _ _ (by decide) (by decide)) g''
              (by omega)]
            have hls : lstrip (',' :: ' ' :: (jdumpItems (y :: rr) ++ ']' :: rest')) =
                ',' :: ' ' :: (jdumpItems (y :: rr) ++ ']' :: rest') :=
              lstrip_not_ws _ _ (by decide)
            have hsw := jparseItems_skip_ws g'' false ' '
              (jdumpItems (y :: rr) ++ ']' :: rest') (by decide)
            have hrec := ihr hwfys.2 (fun y' hy' => hlys y' (List.mem_cons_of_mem x hy'))
              (g'' + 1) false rest' (by simp) (by omega)
            simp [hls, hsw, hrec]
      rw [show jdump (.arr xs) ++ rest = '[' :: (jdumpItems xs ++ ']' :: rest) from by
        rw [jdump]; simp]
      rw [jparseVal, lstrip_not_ws '[' _ (by decide)]
      simp only [if_neg (by decide : ¬('[' = '"')), if_pos rfl]
      rw [hitems xs hwf hlens f true rest (fun _ => rfl) (by omega)]
      rfl
    | obj ms =>
      rw [wfJFuel] at hwf
      have hlenobj : (jdump (.obj ms)).length = (jdumpMembers ms).length + 2 := by
        rw [jdump]
        simp
      have hlens : ∀ p ∈ ms, (jdump p.2).length ≤ N := by
        intro p hp
        obtain ⟨pk, pv⟩ := p
        have h1 := jdumpMembers_mem_le ms pk pv hp
        simp only at h1 ⊢
        omega
      have hmems : ∀ (ys : List (Str × JVal)),
          ys.all (fun p => wfJStr p.1 && wfJFuel fw p.2) = true →
          (∀ p ∈ ys, (jdump p.2).length ≤ N) →
          ∀ (g : Nat) (ae : Bool) (rest' : Str), (ys = [] → ae = true) →
            (jdumpMembers ys).length + 2 ≤ g →
            jparseMembers g ae (jdumpMembers ys ++ '}' :: rest') = some (ys, rest') := by
        intro ys
        induction ys with
        | nil =>
          intro _ _ g ae rest' hae hg
          obtain ⟨g', rfl⟩ : ∃ g', g = g' + 1 := ⟨g - 1, by omega⟩
          rw [show jdumpMembers ([] : List (Str × JVal)) ++ '}' :: rest' = '}' :: rest' from by
            rw [jdumpMembers]; rfl]
          rw [jparseMembers_cons g' ae '}' rest' (by decide), hae rfl]
          simp
        | cons p r ihr =>
          obtain ⟨k, v⟩ := p
          intro hwfys hlys g ae rest' hae hg
          obtain ⟨g', rfl⟩ : ∃ g', g = g' + 1 := ⟨g - 1, by omega⟩
          rw [List.all_cons, Bool.and_eq_true] at hwfys
          obtain ⟨hwfk, hwfv⟩ : wfJStr k = true ∧ wfJFuel fw v = true := by
            have h1 := hwfys.1
            simp only [Bool.and_eq_true] at h1
            exact h1
          have hesck : escapeStr k = k :=
            escapeStr_eq_self k (fun c hc =>
              ⟨(wfJStr_props k hwfk c hc).1, (wfJStr_props k hwfk c hc).2.1⟩)
          have hkraw : ∀ (z : Str), jparseStrAux (k ++ '"' :: z) = some (k, z) :=
            fun z => jparseStrAux_raw k (fun c hc =>
              ⟨(wfJStr_props k hwfk c hc).1, (wfJStr_props k hwfk c hc).2.1⟩) z
          have hvlen : 1 ≤ (jdump v).length := jdump_len_pos v
          cases r with
          | nil =>
            have hlen1 := jdumpMembers_len_one k v
            rw [show jdumpMembers [(k, v)] ++ '}' :: rest' =
                '"' :: (k ++ '"' :: ':' :: ' ' :: (jdump v ++ '}' :: rest')) from by
              rw [show jdumpMembers [(k, v)] =
                  '"' :: escapeStr k ++ '"' :: ':' :: ' ' :: jdump v from by rw [jdumpMembers],
                hesck]
              simp]
            rw [jparseMembers_cons g' ae '"' _ (by decide), if_neg (by simp), if_pos rfl]
            rw [hkraw (':' :: ' ' :: (jdump v ++ '}' :: rest'))]
            obtain ⟨g'', rfl⟩ : ∃ g'', g' = g'' + 1 :=
              ⟨g' - 1, by rw [hesck] at hlen1; omega⟩
            have hlsc : lstrip (':' :: ' ' :: (jdump v ++ '}' :: rest')) =
                ':' :: ' ' :: (jdump v ++ '}' :: rest') := lstrip_not_ws _ _ (by decide)
            have hsw := jparseVal_skip_ws g'' ' ' (jdump v ++ '}' :: rest') (by decide)
            have hvv := ih v fw hwfv (hlys (k, v) (by simp)) ('}' :: rest')
              (numBound_cons _ _ (by decide) (by decide)) g'' (by rw [hesck] at hlen1; omega)
            have hls2 : lstrip ('}' :: rest') = '}' :: rest' := lstrip_not_ws _ _ (by decide)
            simp [hlsc, hsw, hvv, hls2]
          | cons m rr =>
            have hglen := jdumpMembers_len_cons2 k v m rr
            rw [show jdumpMembers ((k, v) :: m :: rr) ++ '}' :: rest' =
                '"' :: (k ++ '"' :: ':' :: ' ' ::
                  (jdump v ++ ',' :: ' ' :: (jdumpMembers (m :: rr) ++ '}' :: rest'))) from by
              rw [show jdumpMembers ((k, v) :: m :: rr) =
                  '"' :: escapeStr k ++ '"' :: ':' :: ' ' :: jdump v ++
                    ',' :: ' ' :: jdumpMembers (m :: rr) from by rw [jdumpMembers],
                hesck]
              simp]
            rw [jparseMembers_cons g' ae '"' _ (by decide), if_neg (by simp), if_pos rfl]
            rw [hkraw (':' :: ' ' :: (jdump v ++ ',' :: ' ' ::
              (jdumpMembers (m :: rr) ++ '}' :: rest')))]
            obtain ⟨g'', rfl⟩ : ∃ g'', g' = g'' + 1 :=
              ⟨g' - 1, by rw [hesck] at hglen; omega⟩
            have hlsc : lstrip (':' :: ' ' :: (jdump v ++ ',' :: ' ' ::
                (jdumpMembers (m :: rr) ++ '}' :: rest'))) =
                ':' :: ' ' :: (jdump v ++ ',' :: ' ' ::
                (jdumpMembers (m :: rr) ++ '}' :: rest')) := lstrip_not_ws _ _ (by decide)
            have hsw := jparseVal_skip_ws g'' ' ' (jdump v ++ ',' :: ' ' ::
              (jdumpMembers (m :: rr) ++ '}' :: rest')) (by decide)
            have hvv := ih v fw hwfv (hlys (k, v) (by simp)) (',' :: ' ' ::
              (jdumpMembers (m :: rr) ++ '}' :: rest'))
              (numBound_cons _ _ (by decide) (by decide)) g'' (by rw [hesck] at hglen; omega)
            have hls2 : lstrip (',' :: ' ' :: (jdumpMembers (m :: rr) ++ '}' :: rest')) =
                ',' :: ' ' :: (jdumpMembers (m :: rr) ++ '}' :: rest') :=
              lstrip_not_ws _ _ (by decide)
            have hsw2 := jparseMembers_skip_ws g'' false ' '
              (jdumpMembers (m :: rr) ++ '}' :: rest') (by decide)
            have hrec := ihr hwfys.2 (fun p' hp' => hlys p' (List.mem_cons_of_mem (k, v) hp'))
              (g'' + 1) false rest' (by simp) (by rw [hesck] at hglen; omega)
            simp [hlsc, hsw, hvv, hls2, hsw2, hrec]
      rw [show jdump (.obj ms) ++ rest = '{' :: (jdumpMembers ms ++ '}' :: rest) from by
        rw [jdump]; simp]
      rw [jparseVal, lstrip_not_ws '{' _ (by decide)]
      simp only [if_neg (by decide : ¬('{' = '"')), if_neg (by decide : ¬('{' = '[')),
        if_pos rfl]
      rw [hmems ms hwf hlens f true rest (fun _ => rfl) (by omega)]
      rfl

theorem numBound_nil : numBound [] := trivial

/-- `json.loads(json.dumps(v)) == v` for well-formed values. -/
theorem json_loads_jdump (v : JVal) (fw : Nat) (hwf : wfJFuel fw v = true) :
    json_loads (jdump v) = some v := by
  rw [json_loads]
  have h := jparseVal_jdump (jdump v).length v fw hwf (le_refl _) [] numBound_nil
    (jdump v).length (le_refl _)
  rw [List.append_nil] at h
  rw [h]
  simp [lstrip]

/-! ## Data model and global state

`users`, `accounts` and `next_account_number` are the program's global
tables.  A user dict has keys `name`, `address`, `dob`, `password_hash`,
`role` and — only for customers — `owned_accounts`; an account dict has
`owner_nic`, `balance`, `transactions` and `created_at`.  Transactions are
exactly the dicts `record_transaction` builds, so they live in `JVal`. -/

structure UserData where
  name : Str
  address : Str
  dob : Str
  password_hash : Str
  role : Str
  owned_accounts : Option (List Str)

structure AccountData where
  owner_nic : Str
  balance : ℚ
  transactions : List JVal
  created_at : Str

structure BankState where
  users : List (Str × UserData)
  accounts : List (Str × AccountData)
  next_account_number : Nat

/-- Python `dict` lookup (`d.get(k)`). -/
def lookupA {α : Type} : List (Str × α) → Str → Option α
  | [], _ => none
  | (k, v) :: r, key => if k = key then some v else lookupA r key

/-- Python `k in d`. -/
def containsKey {α : Type} (l : List (Str × α)) (key : Str) : Bool :=
  (lookupA l key).isSome

/-- Mutate the value stored at a key in place (Python mutates the dict
value object; keys of the table are unique). -/
def updateA {α : Type} : List (Str × α) → Str → (α → α) → List (Str × α)
  | [], _, _ => []
  | (k, v) :: r, key, f => if k = key then (k, f v) :: r else (k, v) :: updateA r key f

/-- `d[key] = v`: replace if present, else append (dict insertion order). -/
def insertA {α : Type} (l : List (Str × α)) (key : Str) (v : α) : List (Str × α) :=
  if containsKey l key then updateA l key (fun _ => v) else l ++ [(key, v)]

/-! The string constants of the program (roles, transaction types,
transaction-detail keys). -/

def customerRole : Str := "customer".toList

def adminRole : Str := "admin".toList

def tsKey : Str := "timestamp".toList

def typeKey : Str := "type".toList

def amountKey : Str := "amount".toList

def toAccountKey : Str := "to_account".toList

def fromAccountKey : Str := "from_account".toList

def rateKey : Str := "rate".toList

def initialDepositT : Str := "Initial Deposit".toList

def depositT : Str := "Deposit".toList

def withdrawalT : Str := "Withdrawal".toList

def transferSentT : Str := "Transfer Sent".toList

def transferReceivedT : Str := "Transfer Received".toList

def interestAppliedT : Str := "Interest Applied".toList

/-- `INTEREST_RATE = 0.015`. -/
def INTEREST_RATE : ℚ := 15 / 1000

/-- `MIN_INITIAL_DEPOSIT = 0.0`. -/
def MIN_INITIAL_DEPOSIT : ℚ := 0

/-- Python `round(x, 2)` idealized as exact rounding of the rational to
two decimal places (`round` on the rational value; the float tie-breaking
of CPython is below the resolution of this idealization). -/
def round2 (q : ℚ) : ℚ := (round (q * 100) : ℤ) / 100

/-- The transaction dict built by `record_transaction`:
`{"timestamp": ts, "type": ttype, "amount": amount, **details}`. -/
def mkTransaction (ts ttype : Str) (amount : ℚ) (details : List (Str × JVal)) : JVal :=
  .obj ([(tsKey, .str ts), (typeKey, .str ttype), (amountKey, .num amount)] ++ details)

/-- `record_transaction(acc_num, trans_type, amount, **details)`: append a
transaction to the account's history; on a non-existent account it only
prints an error and leaves the table unchanged. -/
def record_transaction (accounts : List (Str × AccountData)) (acc_num : Str) (ts : Str)
    (ttype : Str) (amount : ℚ) (details : List (Str × JVal)) : List (Str × AccountData) :=
  if containsKey accounts acc_num then
    updateA accounts acc_num (fun a =>
      { a with transactions := a.transactions ++ [mkTransaction ts ttype amount details] })
  else accounts

/-! ## `generate_account_number` -/

/-- Largest numeric value of any key (used only as a termination measure
for the collision-skipping loop). -/
def maxNumericKey (keys : List Str) : Nat :=
  keys.foldr (fun k acc => max (digitsToNat k) acc) 0

theorem le_maxNumericKey (keys : List Str) (k : Str) (hk : k ∈ keys) :
    digitsToNat k ≤ maxNumericKey keys := by
  induction keys with
  | nil => cases hk
  | cons x r ih =>
    rcases List.mem_cons.mp hk with hk | hk
    · subst hk
      simp [maxNumericKey]
    · have := ih hk
      simp only [maxNumericKey, List.foldr_cons] at *
      omega

/-- The `while str(next_account_number) in accounts` loop: the first
number at or after `n` whose string form is not a key. -/
def firstFreeFrom (keys : List Str) (n : Nat) : Nat :=
  if natToStr n ∈ keys then firstFreeFrom keys (n + 1) else n
termination_by maxNumericKey keys + 1 - n
decreasing_by
  rename_i h
  have h1 := le_maxNumericKey keys _ h
  rw [digitsToNat_natToStr] at h1
  omega

theorem firstFreeFrom_spec (keys : List Str) (n : Nat) :
    natToStr (firstFreeFrom keys n) ∉ keys ∧ n ≤ firstFreeFrom keys n := by
  by_cases h : natToStr n ∈ keys
  · rw [firstFreeFrom, if_pos h]
    have := firstFreeFrom_spec keys (n + 1)
    exact ⟨this.1, by omega⟩
  · rw [firstFreeFrom, if_neg h]
    exact ⟨h, le_refl n⟩
termination_by maxNumericKey keys + 1 - n
decreasing_by
  have h1 := le_maxNumericKey keys _ h
  rw [digitsToNat_natToStr] at h1
  omega

/-- `generate_account_number()`: skips keys already in use, returns the
fresh number (as a string) and the incremented counter. -/
def generate_account_number (accounts : List (Str × AccountData)) (next : Nat) : Str × Nat :=
  let m := firstFreeFrom (accounts.map Prod.fst) next
  (natToStr m, m + 1)

/-! ## The ledger operations

Each interactive operation of the source becomes a pure function from the
state and the values the prompts supply (chosen account, amount — the
input loops only accept positive amounts — and the current timestamp).
The outcome value mirrors the distinct print/return paths of the source.
-/

/-- `create_customer_bank_account(customer_nic)` with the validated
initial deposit `d` (the input loop enforces `d ≥ MIN_INITIAL_DEPOSIT`).
Returns the new account number on success. -/
def create_customer_bank_account (st : BankState) (nic : Str) (d : ℚ) (ts : Str) :
    BankState × Option Str :=
  match lookupA st.users nic with
  | none => (st, none)
  | some u =>
    if u.role ≠ customerRole then (st, none)
    else
      let p := generate_account_number st.accounts st.next_account_number
      let accounts1 := insertA st.accounts p.1
        { owner_nic := nic, balance := d, transactions := [], created_at := ts }
      let accounts2 :=
        if d > 0 then record_transaction accounts1 p.1 ts initialDepositT d []
        else accounts1
      let users' := updateA st.users nic (fun u =>
        { u with owned_accounts := some ((u.owned_accounts.getD []) ++ [p.1]) })
      ({ users := users', accounts := accounts2, next_account_number := p.2 }, some p.1)

/-- `make_deposit`: credit the chosen account with the validated positive
amount and record a `Deposit` transaction.  `false` models the
internal-error return when the account is missing. -/
def make_deposit (st : BankState) (acc_num : Str) (amount : ℚ) (ts : Str) :
    BankState × Bool :=
  match lookupA st.accounts acc_num with
  | none => (st, false)
  | some _ =>
    let accounts1 := updateA st.accounts acc_num (fun a =>
      { a with balance := a.balance + amount })
    let accounts2 := record_transaction accounts1 acc_num ts depositT amount []
    ({ st with accounts := accounts2 }, true)

inductive WithdrawResult where
  | notFound | noFunds | insufficientFunds | success
deriving DecidableEq

/-- `make_withdrawal`: reject when the account is missing, when the
balance is zero (the amount prompt is never reached), or when the amount
exceeds the balance; otherwise debit and record a `Withdrawal`. -/
def make_withdrawal (st : BankState) (acc_num : Str) (amount : ℚ) (ts : Str) :
    BankState × WithdrawResult :=
  match lookupA st.accounts acc_num with
  | none => (st, .notFound)
  | some a =>
    if a.balance = 0 then (st, .noFunds)
    else if amount > a.balance then (st, .insufficientFunds)
    else
      let accounts1 := updateA st.accounts acc_num (fun a =>
        { a with balance := a.balance - amount })
      let accounts2 := record_transaction accounts1 acc_num ts withdrawalT amount []
      ({ st with accounts := accounts2 }, .success)

inductive TransferResult where
  | srcNotFound | emptyDest | sameAccount | destNotFound | insufficientFunds | success
deriving DecidableEq

/-- `transfer_funds`: guards in source order (source account present,
recipient non-empty, not a self-transfer, recipient present, sufficient
funds), then debit source, credit destination, and record the linked
`Transfer Sent` / `Transfer Received` pair. -/
def transfer_funds (st : BankState) (src dest : Str) (amount : ℚ) (ts1 ts2 : Str) :
    BankState × TransferResult :=
  match lookupA st.accounts src with
  | none => (st, .srcNotFound)
  | some sa =>
    if dest = [] then (st, .emptyDest)
    else if src = dest then (st, .sameAccount)
    else
      match lookupA st.accounts dest with
      | none => (st, .destNotFound)
      | some _ =>
        if amount > sa.balance then (st, .insufficientFunds)
        else
          let accounts1 := updateA st.accounts src (fun a =>
            { a with balance := a.balance - amount })
          let accounts2 := updateA accounts1 dest (fun a =>
            { a with balance := a.balance + amount })
          let accounts3 := record_transaction accounts2 src ts1 transferSentT amount
            [(toAccountKey, .str dest)]
          let accounts4 := record_transaction accounts3 dest ts2 transferReceivedT amount
            [(fromAccountKey, .str src)]
          ({ st with accounts := accounts4 }, .success)

/-- The per-entry body of the `apply_interest_to_all_accounts` loop,
recursing over the remaining entries and accumulating the applied count
and total (each entry only mutates its own dict, so the loop over
`accounts.items()` is an entry-wise pass). -/
def apply_interest_go (rate : ℚ) (ts : Str) :
    List (Str × AccountData) → List (Str × AccountData) × Nat × ℚ
  | [] => ([], 0, 0)
  | (k, a) :: rest =>
    let p := apply_interest_go rate ts rest
    if a.balance > 0 then
      let interest := round2 (a.balance * rate)
      if interest > 0 then
        ((k, { a with balance := a.balance + interest,
                      transactions := a.transactions ++
                        [mkTransaction ts interestAppliedT interest [(rateKey, .num rate)]] })
          :: p.1,
         p.2.1 + 1, p.2.2 + interest)
      else ((k, a) :: p.1, p.2.1, p.2.2)
    else ((k, a) :: p.1, p.2.1, p.2.2)

/-- `apply_interest_to_all_accounts()`: for every account with a positive
balance compute `round(balance * rate, 2)` and credit it when positive,
recording `Interest Applied` with the rate used; reports the number of
credited accounts and the total distributed.  The source uses the global
`INTEREST_RATE`; the rate is a parameter here. -/
def apply_interest_to_all_accounts (st : BankState) (rate : ℚ) (ts : Str) :
    BankState × Nat × ℚ :=
  let p := apply_interest_go rate ts st.accounts
  ({ st with accounts := p.1 }, p.2.1, p.2.2)

/-! ## Record serialization (`_serialize_user` … `_deserialize_account`) -/

/-- `_serialize_user(nic, user_data)`. -/
def _serialize_user (nic : Str) (u : UserData) : Str :=
  let owned := if u.role = customerRole then u.owned_accounts.getD [] else []
  joinData [nic, u.name, u.address, u.dob, u.password_hash, u.role, joinList owned]

/-- `_deserialize_user(line)`: `none` models the `(None, None)` return. -/
def _deserialize_user (line : Str) : Option (Str × UserData) :=
  match splitData (stripStr line) with
  | [nic, name, addr, dob, pwh, role, owned] =>
    if role = customerRole then
      some (nic, ⟨name, addr, dob, pwh, role,
        some ((splitCh ';' owned).filter (fun a => !a.isEmpty))⟩)
    else if role = adminRole then
      some (nic, ⟨name, addr, dob, pwh, role, none⟩)
    else none
  | _ => none

/-- `_serialize_account(acc_num, acc_data)` (`str(float(balance))` is the
decimal rendering; the transaction list is embedded as a JSON blob). -/
def _serialize_account (acc_num : Str) (a : AccountData) : Str :=
  joinData [acc_num, a.owner_nic, ratToDecStr a.balance, a.created_at,
    jdump (.arr a.transactions)]

/-- `_deserialize_account(line)`: exactly 5 fields required; an unparsable
balance defaults to `0.0`; an unparsable or non-list transactions blob
defaults to `[]`. -/
def _deserialize_account (line : Str) : Option (Str × AccountData) :=
  match splitData (stripStr line) with
  | [acc_num, owner, balance_str, created, tx_str] =>
    let balance := (parseFloat balance_str).getD 0
    let transactions :=
      match json_loads tx_str with
      | some (.arr l) => l
      | _ => []
    some (acc_num, ⟨owner, balance, transactions, created⟩)
  | _ => none

/-! ### Association-list (dict) lemmas -/

theorem lookupA_updateA_self {α : Type} (l : List (Str × α)) (key : Str) (f : α → α) :
    lookupA (updateA l key f) key = (lookupA l key).map f := by
  induction l with
  | nil => rfl
  | cons p r ih =>
    obtain ⟨k, v⟩ := p
    by_cases hk : k = key
    · rw [updateA, if_pos hk, lookupA, if_pos hk, lookupA, if_pos hk]
      rfl
    · rw [updateA, if_neg hk, lookupA, if_neg hk, lookupA, if_neg hk, ih]

theorem lookupA_updateA_ne {α : Type} (l : List (Str × α)) (key k' : Str) (f : α → α)
    (hne : k' ≠ key) :
    lookupA (updateA l key f) k' = lookupA l k' := by
  induction l with
  | nil => rfl
  | cons p r ih =>
    obtain ⟨k, v⟩ := p
    by_cases hk : k = key
    · subst hk
      rw [updateA, if_pos rfl, lookupA, if_neg (fun h => hne h.symm), lookupA,
        if_neg (fun h => hne h.symm)]
    · by_cases hk' : k = k'
      · subst hk'
        rw [updateA, if_neg hk, lookupA, if_pos rfl, lookupA, if_pos rfl]
      · rw [updateA, if_neg hk, lookupA, if_neg hk', lookupA, if_neg hk', ih]

theorem containsKey_updateA {α : Type} (l : List (Str × α)) (key k' : Str) (f : α → α) :
    containsKey (updateA l key f) k' = containsKey l k' := by
  by_cases h : k' = key
  · subst h
    rw [containsKey, lookupA_updateA_self, containsKey]
    cases lookupA l k' <;> rfl
  · rw [containsKey, lookupA_updateA_ne l key k' f h, containsKey]

theorem updateA_updateA {α : Type} (l : List (Str × α)) (key : Str) (f g : α → α) :
    updateA (updateA l key f) key g = updateA l key (fun a => g (f a)) := by
  induction l with
  | nil => rfl
  | cons p r ih =>
    obtain ⟨k, v⟩ := p
    by_cases hk : k = key
    · rw [updateA, if_pos hk, updateA, if_pos hk, updateA, if_pos hk]
    · rw [updateA, if_neg hk, updateA, if_neg hk, updateA, if_neg hk, ih]

theorem lookupA_of_not_mem {α : Type} (l : List (Str × α)) (key : Str)
    (h : key ∉ l.map Prod.fst) : lookupA l key = none := by
  induction l with
  | nil => rfl
  | cons p r ih =>
    obtain ⟨k, v⟩ := p
    simp only [List.map_cons, List.mem_cons] at h
    push_neg at h
    rw [lookupA, if_neg (fun hh => h.1 hh.symm), ih h.2]

theorem lookupA_append_left {α : Type} (l1 l2 : List (Str × α)) (key : Str) (v : α)
    (h : lookupA l1 key = some v) : lookupA (l1 ++ l2) key = some v := by
  induction l1 with
  | nil => simp [lookupA] at h
  | cons p r ih =>
    obtain ⟨k, w⟩ := p
    rw [lookupA] at h
    rw [List.cons_append, lookupA]
    by_cases hk : k = key
    · rw [if_pos hk] at h ⊢
      exact h
    · rw [if_neg hk] at h ⊢
      exact ih h

theorem lookupA_append_right {α : Type} (l1 l2 : List (Str × α)) (key : Str)
    (h : lookupA l1 key = none) : lookupA (l1 ++ l2) key = lookupA l2 key := by
  induction l1 with
  | nil => rfl
  | cons p r ih =>
    obtain ⟨k, w⟩ := p
    rw [lookupA] at h
    rw [List.cons_append, lookupA]
    by_cases hk : k = key
    · rw [if_pos hk] at h
      cases h
    · rw [if_neg hk] at h ⊢
      exact ih h

theorem containsKey_of_lookup {α : Type} (l : List (Str × α)) (key : Str) (v : α)
    (h : lookupA l key = some v) : containsKey l key = true := by
  simp [containsKey, h]

theorem record_transaction_of_contains (accounts : List (Str × AccountData)) (acc ts ty : Str)
    (amt : ℚ) (details : List (Str × JVal)) (h : containsKey accounts acc = true) :
    record_transaction accounts acc ts ty amt details =
      updateA accounts acc (fun a =>
        { a with transactions := a.transactions ++ [mkTransaction ts ty amt details] }) := by
  rw [record_transaction, if_pos h]

/-! ### Signed transaction amounts (the balance-invariant accounting) -/

/-- The signed contribution of a recorded transaction to the balance:
`Withdrawal` and `Transfer Sent` count negative; `Initial Deposit`,
`Deposit`, `Transfer Received` and `Interest Applied` count positive. -/
def txSigned (t : JVal) : ℚ :=
  match t with
  | .obj ms =>
    match lookupA ms typeKey, lookupA ms amountKey with
    | some (.str ty), some (.num a) =>
      if ty = withdrawalT ∨ ty = transferSentT then -a
      else if ty = initialDepositT ∨ ty = depositT ∨ ty = transferReceivedT ∨
        ty = interestAppliedT then a
      else 0
    | _, _ => 0
  | _ => 0

/-- Signed sum of the amounts of a list of transactions. -/
def signedSum (txs : List JVal) : ℚ := (txs.map txSigned).sum

theorem signedSum_nil : signedSum [] = 0 := rfl

theorem signedSum_append (a b : List JVal) :
    signedSum (a ++ b) = signedSum a + signedSum b := by
  simp [signedSum]

theorem signedSum_singleton (t : JVal) : signedSum [t] = txSigned t := by
  simp [signedSum]

theorem txSigned_mk (ts ty : Str) (a : ℚ) (details : List (Str × JVal)) :
    txSigned (mkTransaction ts ty a details) =
      if ty = withdrawalT ∨ ty = transferSentT then -a
      else if ty = initialDepositT ∨ ty = depositT ∨ ty = transferReceivedT ∨
        ty = interestAppliedT then a
      else 0 := by
  have h1 : lookupA ((tsKey, JVal.str ts) :: (typeKey, JVal.str ty) ::
      (amountKey, JVal.num a) :: details) typeKey = some (.str ty) := by
    rw [lookupA, if_neg (by decide), lookupA, if_pos rfl]
  have h2 : lookupA ((tsKey, JVal.str ts) :: (typeKey, JVal.str ty) ::
      (amountKey, JVal.num a) :: details) amountKey = some (.num a) := by
    rw [lookupA, if_neg (by decide), lookupA, if_neg (by decide), lookupA, if_pos rfl]
  rw [show mkTransaction ts ty a details = .obj ((tsKey, JVal.str ts) :: (typeKey, JVal.str ty) ::
      (amountKey, JVal.num a) :: details) from rfl]
  rw [txSigned, h1, h2]

theorem txSigned_initialDeposit (ts : Str) (a : ℚ) (details : List (Str × JVal)) :
    txSigned (mkTransaction ts initialDepositT a details) = a := by
  rw [txSigned_mk, if_neg (by decide), if_pos (by decide)]

theorem txSigned_deposit (ts : Str) (a : ℚ) (details : List (Str × JVal)) :
    txSigned (mkTransaction ts depositT a details) = a := by
  rw [txSigned_mk, if_neg (by decide), if_pos (by decide)]

theorem txSigned_withdrawal (ts : Str) (a : ℚ) (details : List (Str × JVal)) :
    txSigned (mkTransaction ts withdrawalT a details) = -a := by
  rw [txSigned_mk, if_pos (by decide)]

theorem txSigned_transferSent (ts : Str) (a : ℚ) (details : List (Str × JVal)) :
    txSigned (mkTransaction ts transferSentT a details) = -a := by
  rw [txSigned_mk, if_pos (by decide)]

theorem txSigned_transferReceived (ts : Str) (a : ℚ) (details : List (Str × JVal)) :
    txSigned (mkTransaction ts transferReceivedT a details) = a := by
  rw [txSigned_mk, if_neg (by decide), if_pos (by decide)]

theorem txSigned_interestApplied (ts : Str) (a : ℚ) (details : List (Str × JVal)) :
    txSigned (mkTransaction ts interestAppliedT a details) = a := by
  rw [txSigned_mk, if_neg (by decide), if_pos (by decide)]

theorem updateA_comm {α : Type} (l : List (Str × α)) (k1 k2 : Str) (f g : α → α)
    (h : k1 ≠ k2) :
    updateA (updateA l k1 f) k2 g = updateA (updateA l k2 g) k1 f := by
  induction l with
  | nil => rfl
  | cons p r ih =>
    obtain ⟨k, v⟩ := p
    by_cases h1 : k = k1
    · subst h1
      have L : updateA ((k, v) :: r) k f = (k, f v) :: r := by rw [updateA, if_pos rfl]
      have R : updateA ((k, v) :: r) k2 g = (k, v) :: updateA r k2 g := by
        rw [updateA, if_neg h]
      rw [L, R, updateA, if_neg h, updateA, if_pos rfl]
    · by_cases h2 : k = k2
      · subst h2
        have L : updateA ((k, v) :: r) k1 f = (k, v) :: updateA r k1 f := by
          rw [updateA, if_neg h1]
        have R : updateA ((k, v) :: r) k g = (k, g v) :: r := by rw [updateA, if_pos rfl]
        rw [L, R, updateA, if_pos rfl, updateA, if_neg h1]
      · have L : updateA ((k, v) :: r) k1 f = (k, v) :: updateA r k1 f := by
          rw [updateA, if_neg h1]
        have R : updateA ((k, v) :: r) k2 g = (k, v) :: updateA r k2 g := by
          rw [updateA, if_neg h2]
        rw [L, R, updateA, if_neg h2, updateA, if_neg h1, ih]

theorem updateA_append_fresh {α : Type} (l : List (Str × α)) (key : Str) (v : α) (f : α → α)
    (h : lookupA l key = none) :
    updateA (l ++ [(key, v)]) key f = l ++ [(key, f v)] := by
  induction l with
  | nil => simp [updateA]
  | cons p r ih =>
    obtain ⟨k, w⟩ := p
    rw [lookupA] at h
    by_cases hk : k = key
    · rw [if_pos hk] at h
      cases h
    · rw [if_neg hk] at h
      rw [List.cons_append, updateA, if_neg hk, ih h]
      rfl

theorem lookupA_mapValues {α β : Type} (l : List (Str × α)) (g : α → β) (key : Str) :
    lookupA (l.map (fun p => (p.1, g p.2))) key = (lookupA l key).map g := by
  induction l with
  | nil => rfl
  | cons p r ih =>
    obtain ⟨k, v⟩ := p
    by_cases hk : k = key
    · simp [lookupA, hk]
    · simp [lookupA, hk, ih]

/-! ### Normal forms of the operations -/

theorem make_deposit_none (st : BankState) (acc : Str) (amt : ℚ) (ts : Str)
    (h : lookupA st.accounts acc = none) :
    make_deposit st acc amt ts = (st, false) := by
  simp only [make_deposit, h]

theorem make_deposit_some (st : BankState) (acc : Str) (amt : ℚ) (ts : Str) (a0 : AccountData)
    (h : lookupA st.accounts acc = some a0) :
    make_deposit st acc amt ts =
      ({ st with accounts := updateA st.accounts acc (fun a =>
        { a with balance := a.balance + amt,
                 transactions := a.transactions ++ [mkTransaction ts depositT amt []] }) },
       true) := by
  have hc : containsKey (updateA st.accounts acc
      (fun a => { a with balance := a.balance + amt })) acc = true := by
    rw [containsKey_updateA]
    exact containsKey_of_lookup _ _ _ h
  simp only [make_deposit, h]
  rw [record_transaction_of_contains _ acc ts depositT amt [] hc, updateA_updateA]

theorem make_withdrawal_none (st : BankState) (acc : Str) (amt : ℚ) (ts : Str)
    (h : lookupA st.accounts acc = none) :
    make_withdrawal st acc amt ts = (st, .notFound) := by
  simp only [make_withdrawal, h]

theorem make_withdrawal_noFunds (st : BankState) (acc : Str) (amt : ℚ) (ts : Str)
    (a0 : AccountData) (h : lookupA st.accounts acc = some a0) (h0 : a0.balance = 0) :
    make_withdrawal st acc amt ts = (st, .noFunds) := by
  simp only [make_withdrawal, h, h0]
  simp

theorem make_withdrawal_insufficient (st : BankState) (acc : Str) (amt : ℚ) (ts : Str)
    (a0 : AccountData) (h : lookupA st.accounts acc = some a0) (h0 : a0.balance ≠ 0)
    (hgt : amt > a0.balance) :
    make_withdrawal st acc amt ts = (st, .insufficientFunds) := by
  simp only [make_withdrawal, h]
  rw [if_neg h0, if_pos hgt]

theorem make_withdrawal_success (st : BankState) (acc : Str) (amt : ℚ) (ts : Str)
    (a0 : AccountData) (h : lookupA st.accounts acc = some a0) (h0 : a0.balance ≠ 0)
    (hle : ¬amt > a0.balance) :
    make_withdrawal st acc amt ts =
      ({ st with accounts := updateA st.accounts acc (fun a =>
        { a with balance := a.balance - amt,
                 transactions := a.transactions ++ [mkTransaction ts withdrawalT amt []] }) },
       .success) := by
  have hc : containsKey (updateA st.accounts acc
      (fun a => { a with balance := a.balance - amt })) acc = true := by
    rw [containsKey_updateA]
    exact containsKey_of_lookup _ _ _ h
  simp only [make_withdrawal, h]
  rw [if_neg h0, if_neg hle,
    record_transaction_of_contains _ acc ts withdrawalT amt [] hc, updateA_updateA]

theorem transfer_funds_srcNotFound (st : BankState) (src dest : Str) (amt : ℚ) (ts1 ts2 : Str)
    (h : lookupA st.accounts src = none) :
    transfer_funds st src dest amt ts1 ts2 = (st, .srcNotFound) := by
  simp only [transfer_funds, h]

theorem transfer_funds_emptyDest (st : BankState) (src dest : Str) (amt : ℚ) (ts1 ts2 : Str)
    (sa : AccountData) (h : lookupA st.accounts src = some sa) (hd : dest = []) :
    transfer_funds st src dest amt ts1 ts2 = (st, .emptyDest) := by
  simp only [transfer_funds, h]
  rw [if_pos hd]

theorem transfer_funds_sameAccount (st : BankState) (src dest : Str) (amt : ℚ) (ts1 ts2 : Str)
    (sa : AccountData) (h : lookupA st.accounts src = some sa) (hd : dest ≠ [])
    (hsd : src = dest) :
    transfer_funds st src dest amt ts1 ts2 = (st, .sameAccount) := by
  simp only [transfer_funds, h]
  rw [if_neg hd, if_pos hsd]

theorem transfer_funds_destNotFound (st : BankState) (src dest : Str) (amt : ℚ) (ts1 ts2 : Str)
    (sa : AccountData) (h : lookupA st.accounts src = some sa) (hd : dest ≠ [])
    (hsd : src ≠ dest) (hdn : lookupA st.accounts dest = none) :
    transfer_funds st src dest amt ts1 ts2 = (st, .destNotFound) := by
  simp only [transfer_funds, h, hdn]
  rw [if_neg hd, if_neg hsd]

theorem transfer_funds_insufficient (st : BankState) (src dest : Str) (amt : ℚ) (ts1 ts2 : Str)
    (sa da : AccountData) (h : lookupA st.accounts src = some sa) (hd : dest ≠ [])
    (hsd : src ≠ dest) (hdd : lookupA st.accounts dest = some da) (hgt : amt > sa.balance) :
    transfer_funds st src dest amt ts1 ts2 = (st, .insufficientFunds) := by
  simp only [transfer_funds, h, hdd]
  rw [if_neg hd, if_neg hsd, if_pos hgt]

theorem transfer_funds_success (st : BankState) (src dest : Str) (amt : ℚ) (ts1 ts2 : Str)
    (sa da : AccountData) (h : lookupA st.accounts src = some sa) (hd : dest ≠ [])
    (hsd : src ≠ dest) (hdd : lookupA st.accounts dest = some da) (hle : ¬amt > sa.balance) :
    transfer_funds st src dest amt ts1 ts2 =
      ({ st with accounts := updateA (updateA st.accounts src (fun a =>
                   { a with balance := a.balance - amt,
                            transactions := a.transactions ++
                              [mkTransaction ts1 transferSentT amt
                                [(toAccountKey, .str dest)]] }))
                   dest (fun a =>
                   { a with balance := a.balance + amt,
                            transactions := a.transactions ++
                              [mkTransaction ts2 transferReceivedT amt
                                [(fromAccountKey, .str src)]] }) },
       .success) := by
  have hc2 : containsKey (updateA (updateA st.accounts src (fun a =>
      { a with balance := a.balance - amt })) dest (fun a =>
      { a with balance := a.balance + amt })) src = true := by
    rw [containsKey_updateA, containsKey_updateA]
    exact containsKey_of_lookup _ _ _ h
  simp only [transfer_funds, h, hdd]
  rw [if_neg hd, if_neg hsd, if_neg hle,
    record_transaction_of_contains _ src ts1 transferSentT amt _ hc2]
  have hc3 : containsKey (updateA (updateA (updateA st.accounts src (fun a =>
      { a with balance := a.balance - amt })) dest (fun a =>
      { a with balance := a.balance + amt })) src (fun a =>
      { a with transactions := a.transactions ++
        [mkTransaction ts1 transferSentT amt [(toAccountKey, .str dest)]] })) dest = true := by
    rw [containsKey_updateA, containsKey_updateA, containsKey_updateA]
    exact containsKey_of_lookup _ _ _ hdd
  rw [record_transaction_of_contains _ dest ts2 transferReceivedT amt _ hc3]
  rw [show updateA (updateA (updateA st.accounts src (fun a =>
      { a with balance := a.balance - amt })) dest (fun a =>
      { a with balance := a.balance + amt })) src (fun a =>
      { a with transactions := a.transactions ++
        [mkTransaction ts1 transferSentT amt [(toAccountKey, .str dest)]] }) =
    updateA (updateA (updateA st.accounts src (fun a =>
      { a with balance := a.balance - amt })) src (fun a =>
      { a with transactions := a.transactions ++
        [mkTransaction ts1 transferSentT amt [(toAccountKey, .str dest)]] })) dest (fun a =>
      { a with balance := a.balance + amt }) from
    updateA_comm _ dest src _ _ (fun hh => hsd hh.symm)]
  rw [updateA_updateA, updateA_updateA]

theorem create_account_no_user (st : BankState) (nic : Str) (d : ℚ) (ts : Str)
    (h : lookupA st.users nic = none) :
    create_customer_bank_account st nic d ts = (st, none) := by
  simp only [create_customer_bank_account, h]

theorem create_account_not_customer (st : BankState) (nic : Str) (d : ℚ) (ts : Str)
    (u : UserData) (h : lookupA st.users nic = some u) (hr : u.role ≠ customerRole) :
    create_customer_bank_account st nic d ts = (st, none) := by
  simp only [create_customer_bank_account, h]
  rw [if_pos hr]

theorem create_account_some (st : BankState) (nic : Str) (d : ℚ) (ts : Str)
    (u : UserData) (h : lookupA st.users nic = some u) (hr : u.role = customerRole)
    (m : Nat) (hm : m = firstFreeFrom (st.accounts.map Prod.fst) st.next_account_number) :
    create_customer_bank_account st nic d ts =
      ({ users := updateA st.users nic (fun u =>
                    { u with owned_accounts := some ((u.owned_accounts.getD []) ++
                      [natToStr m]) }),
         accounts := st.accounts ++
           [(natToStr m,
             { owner_nic := nic, balance := d,
               transactions := if d > 0 then [mkTransaction ts initialDepositT d []] else [],
               created_at := ts })],
         next_account_number := m + 1 },
       some (natToStr m)) := by
  have hfresh : lookupA st.accounts (natToStr m) = none := by
    apply lookupA_of_not_mem
    rw [hm]
    exact (firstFreeFrom_spec _ _).1
  have hnc : containsKey st.accounts (natToStr m) = false := by
    rw [containsKey, hfresh]
    rfl
  have hins : insertA st.accounts (natToStr m)
      { owner_nic := nic, balance := d, transactions := [], created_at := ts } =
      st.accounts ++ [(natToStr m,
        { owner_nic := nic, balance := d, transactions := [], created_at := ts })] := by
    rw [insertA, hnc]
    simp
  simp only [create_customer_bank_account, h]
  rw [if_neg (by simp [hr]), show generate_account_number st.accounts st.next_account_number =
    (natToStr m, m + 1) from by rw [generate_account_number, ← hm]]
  simp only [hins]
  by_cases hd : d > 0
  · rw [if_pos hd, if_pos hd]
    have hlk : lookupA (st.accounts ++ [(natToStr m,
        ({ owner_nic := nic, balance := d, transactions := [], created_at := ts }
          : AccountData))]) (natToStr m) =
        some { owner_nic := nic, balance := d, transactions := [], created_at := ts } := by
      rw [lookupA_append_right _ _ _ hfresh, lookupA, if_pos rfl]
    rw [record_transaction_of_contains _ _ _ _ _ _ (containsKey_of_lookup _ _ _ hlk),
      updateA_append_fresh _ _ _ _ hfresh]
    rfl
  · rw [if_neg hd, if_neg hd]

/-! ### The interest pass, entry-wise -/

/-- Is an account credited by the interest pass (`balance > 0` and the
rounded interest positive)? -/
def interestCredited (rate : ℚ) (a : AccountData) : Bool :=
  decide (a.balance > 0) && decide (round2 (a.balance * rate) > 0)

/-- Effect of one interest pass on one account. -/
def interestStep (rate : ℚ) (ts : Str) (a : AccountData) : AccountData :=
  if interestCredited rate a then
    { a with balance := a.balance + round2 (a.balance * rate),
             transactions := a.transactions ++
               [mkTransaction ts interestAppliedT (round2 (a.balance * rate))
                 [(rateKey, .num rate)]] }
  else a

theorem apply_interest_go_spec (rate : ℚ) (ts : Str) (l : List (Str × AccountData)) :
    apply_interest_go rate ts l =
      (l.map (fun p => (p.1, interestStep rate ts p.2)),
       (l.filter (fun p => interestCredited rate p.2)).length,
       ((l.filter (fun p => interestCredited rate p.2)).map
         (fun p => round2 (p.2.balance * rate))).sum) := by
  induction l with
  | nil => rfl
  | cons p r ih =>
    obtain ⟨k, a⟩ := p
    rw [apply_interest_go, ih]
    by_cases hb : a.balance > 0
    · by_cases hi : round2 (a.balance * rate) > 0
      · have hc : interestCredited rate a = true := by
          rw [interestCredited]
          simp [hb, hi]
        rw [if_pos hb, if_pos hi]
        simp only [List.map_cons, List.filter_cons, hc, if_pos rfl, List.length_cons,
          List.map_cons, List.sum_cons, interestStep, if_true, Prod.mk.injEq]
        exact ⟨trivial, trivial, by ring⟩
      · have hc : interestCredited rate a = false := by
          rw [interestCredited]
          simp [hi]
        rw [if_pos hb, if_neg hi]
        simp [interestStep, hc]
    · have hc : interestCredited rate a = false := by
        rw [interestCredited]
        simp [hb]
      rw [if_neg hb]
      simp [interestStep, hc]

/-! ## Sequences of ledger operations -/

/-- One interactive ledger operation, together with the values its input
prompts supply. -/
inductive LedgerOp where
  | create (nic : Str) (d : ℚ) (ts : Str)
  | deposit (acc : Str) (amount : ℚ) (ts : Str)
  | withdraw (acc : Str) (amount : ℚ) (ts : Str)
  | transfer (src dest : Str) (amount : ℚ) (ts1 ts2 : Str)
  | interest (rate : ℚ) (ts : Str)

/-- State effect of one operation (a failed operation leaves the state
unchanged, matching the early-return paths of the source). -/
def applyOp (st : BankState) : LedgerOp → BankState
  | .create nic d ts => (create_customer_bank_account st nic d ts).1
  | .deposit acc amount ts => (make_deposit st acc amount ts).1
  | .withdraw acc amount ts => (make_withdrawal st acc amount ts).1
  | .transfer src dest amount ts1 ts2 => (transfer_funds st src dest amount ts1 ts2).1
  | .interest rate ts => (apply_interest_to_all_accounts st rate ts).1

def applyOps (st : BankState) (ops : List LedgerOp) : BankState := ops.foldl applyOp st

/-- The domain the interactive prompts enforce: creation deposits are at
least the zero minimum, the other amounts are positive. -/
def validOp : LedgerOp → Bool
  | .create _ d _ => decide (0 ≤ d)
  | .deposit _ amount _ => decide (0 < amount)
  | .withdraw _ amount _ => decide (0 < amount)
  | .transfer _ _ amount _ _ => decide (0 < amount)
  | .interest _ _ => true

/-- How one account's entry can change across ledger operations: it keeps
its transaction prefix and its balance moves by exactly the signed sum of
the newly recorded transactions; an account created along the way has its
balance equal to the signed sum of its whole history; accounts are never
deleted. -/
def accountEvolves : Option AccountData → Option AccountData → Prop
  | none, none => True
  | none, some a1 => a1.balance = signedSum a1.transactions
  | some _, none => False
  | some a0, some a1 => ∃ new, a1.transactions = a0.transactions ++ new ∧
      a1.balance = a0.balance + signedSum new

theorem accountEvolves_refl (o : Option AccountData) : accountEvolves o o := by
  cases o with
  | none => trivial
  | some a => exact ⟨[], by simp, by simp [signedSum_nil]⟩

theorem accountEvolves_trans (o1 o2 o3 : Option AccountData)
    (h12 : accountEvolves o1 o2) (h23 : accountEvolves o2 o3) : accountEvolves o1 o3 := by
  cases o1 with
  | none =>
    cases o2 with
    | none => cases o3 with
      | none => trivial
      | some a3 => exact h23
    | some a2 =>
      cases o3 with
      | none => exact absurd h23 (by simp [accountEvolves])
      | some a3 =>
        obtain ⟨new, ht, hb⟩ := h23
        show a3.balance = signedSum a3.transactions
        rw [ht, hb, signedSum_append, h12]
  | some a1 =>
    cases o2 with
    | none => exact absurd h12 (by simp [accountEvolves])
    | some a2 =>
      cases o3 with
      | none => exact absurd h23 (by simp [accountEvolves])
      | some a3 =>
        obtain ⟨n1, ht1, hb1⟩ := h12
        obtain ⟨n2, ht2, hb2⟩ := h23
        exact ⟨n1 ++ n2, by rw [ht2, ht1, List.append_assoc],
          by rw [hb2, hb1, signedSum_append]; ring⟩

/-- Updating one account by appending one transaction and moving the
balance by its signed amount preserves the evolution relation at every
key. -/
theorem accountEvolves_updateA (accounts : List (Str × AccountData)) (acc k : Str)
    (g : AccountData → AccountData) (tx : JVal)
    (hg : ∀ a, g a = { a with balance := a.balance + txSigned tx,
                              transactions := a.transactions ++ [tx] }) :
    accountEvolves (lookupA accounts k) (lookupA (updateA accounts acc g) k) := by
  by_cases hk : k = acc
  · subst hk
    rw [lookupA_updateA_self]
    cases hl : lookupA accounts k with
    | none => trivial
    | some a0 =>
      rw [Option.map_some', hg a0]
      exact ⟨[tx], by simp, by rw [signedSum_singleton]⟩
  · rw [lookupA_updateA_ne _ _ _ _ hk]
    exact accountEvolves_refl _

/-- Every single ledger operation preserves the per-account evolution
relation (failed operations leave the state unchanged). -/
theorem applyOp_evolves (st : BankState) (op : LedgerOp) (hv : validOp op = true) (k : Str) :
    accountEvolves (lookupA st.accounts k) (lookupA (applyOp st op).accounts k) := by
  cases op with
  | create nic d ts =>
    rw [validOp, decide_eq_true_eq] at hv
    cases hu : lookupA st.users nic with
    | none =>
      rw [applyOp, create_account_no_user st nic d ts hu]
      exact accountEvolves_refl _
    | some u =>
      by_cases hr : u.role = customerRole
      · set m := firstFreeFrom (st.accounts.map Prod.fst) st.next_account_number with hm
        have hfresh : lookupA st.accounts (natToStr m) = none := by
          apply lookupA_of_not_mem
          rw [hm]
          exact (firstFreeFrom_spec _ _).1
        have hacc : (applyOp st (.create nic d ts)).accounts =
            st.accounts ++ [(natToStr m,
              { owner_nic := nic, balance := d,
                transactions := if d > 0 then [mkTransaction ts initialDepositT d []] else [],
                created_at := ts })] := by
          rw [applyOp, create_account_some st nic d ts u hu hr m hm]
        rw [hacc]
        by_cases hk : k = natToStr m
        · subst hk
          rw [hfresh, lookupA_append_right _ _ _ hfresh, lookupA, if_pos rfl]
          show d = signedSum (if d > 0 then [mkTransaction ts initialDepositT d []] else [])
          by_cases hd : d > 0
          · rw [if_pos hd, signedSum_singleton, txSigned_initialDeposit]
          · rw [if_neg hd, signedSum_nil]
            linarith
        · cases hl : lookupA st.accounts k with
          | none =>
            rw [lookupA_append_right _ _ _ hl, lookupA, if_neg (fun hh => hk hh.symm), lookupA]
            trivial
          | some a0 =>
            rw [lookupA_append_left _ _ _ _ hl]
            exact accountEvolves_refl _
      · rw [applyOp, create_account_not_customer st nic d ts u hu hr]
        exact accountEvolves_refl _
  | deposit acc amount ts =>
    cases hl : lookupA st.accounts acc with
    | none =>
      rw [applyOp, make_deposit_none st acc amount ts hl]
      exact accountEvolves_refl _
    | some a0 =>
      rw [applyOp, make_deposit_some st acc amount ts a0 hl]
      exact accountEvolves_updateA _ _ _ _ (mkTransaction ts depositT amount [])
        (fun a => by rw [txSigned_deposit])
  | withdraw acc amount ts =>
    cases hl : lookupA st.accounts acc with
    | none =>
      rw [applyOp, make_withdrawal_none st acc amount ts hl]
      exact accountEvolves_refl _
    | some a0 =>
      by_cases h0 : a0.balance = 0
      · rw [applyOp, make_withdrawal_noFunds st acc amount ts a0 hl h0]
        exact accountEvolves_refl _
      · by_cases hgt : amount > a0.balance
        · rw [applyOp, make_withdrawal_insufficient st acc amount ts a0 hl h0 hgt]
          exact accountEvolves_refl _
        · rw [applyOp, make_withdrawal_success st acc amount ts a0 hl h0 hgt]
          refine accountEvolves_updateA _ _ _ _ (mkTransaction ts withdrawalT amount [])
            (fun a => by rw [txSigned_withdrawal]; congr 1; ring)
  | transfer src dest amount ts1 ts2 =>
    cases hl : lookupA st.accounts src with
    | none =>
      rw [applyOp, transfer_funds_srcNotFound st src dest amount ts1 ts2 hl]
      exact accountEvolves_refl _
    | some sa =>
      by_cases hd : dest = []
      · rw [applyOp, transfer_funds_emptyDest st src dest amount ts1 ts2 sa hl hd]
        exact accountEvolves_refl _
      · by_cases hsd : src = dest
        · rw [applyOp, transfer_funds_sameAccount st src dest amount ts1 ts2 sa hl hd hsd]
          exact accountEvolves_refl _
        · cases hdl : lookupA st.accounts dest with
          | none =>
            rw [applyOp, transfer_funds_destNotFound st src dest amount ts1 ts2 sa hl hd hsd hdl]
            exact accountEvolves_refl _
          | some da =>
            by_cases hgt : amount > sa.balance
            · rw [applyOp,
                transfer_funds_insufficient st src dest amount ts1 ts2 sa da hl hd hsd hdl hgt]
              exact accountEvolves_refl _
            · rw [applyOp,
                transfer_funds_success st src dest amount ts1 ts2 sa da hl hd hsd hdl hgt]
              refine accountEvolves_trans _ _ _
                (accountEvolves_updateA st.accounts src k _
                  (mkTransaction ts1 transferSentT amount [(toAccountKey, .str dest)])
                  (fun a => by rw [txSigned_transferSent]; congr 1; ring))
                (accountEvolves_updateA _ dest k _
                  (mkTransaction ts2 transferReceivedT amount [(fromAccountKey, .str src)])
                  (fun a => by rw [txSigned_transferReceived]))
  | interest rate ts =>
    rw [applyOp, apply_interest_to_all_accounts]
    simp only [apply_interest_go_spec]
    rw [show (fun (p : Str × AccountData) => (p.1, interestStep rate ts p.2)) =
      (fun (p : Str × AccountData) => (p.1, (fun a => interestStep rate ts a) p.2)) from rfl]
    rw [lookupA_mapValues]
    cases hl : lookupA st.accounts k with
    | none => trivial
    | some a0 =>
      rw [Option.map_some']
      rw [interestStep]
      by_cases hc : interestCredited rate a0 = true
      · rw [if_pos hc]
        exact ⟨[mkTransaction ts interestAppliedT (round2 (a0.balance * rate))
          [(rateKey, .num rate)]], by simp,
          by rw [signedSum_singleton, txSigned_interestApplied]⟩
      · rw [if_neg hc]
        exact accountEvolves_refl _

/-- The evolution relation across any sequence of operations. -/
theorem applyOps_evolves (ops : List LedgerOp) (st : BankState)
    (hops : ∀ op ∈ ops, validOp op = true) (k : Str) :
    accountEvolves (lookupA st.accounts k) (lookupA (applyOps st ops).accounts k) := by
  induction ops generalizing st with
  | nil => exact accountEvolves_refl _
  | cons op rest ih =>
    rw [applyOps, List.foldl_cons]
    exact accountEvolves_trans _ _ _
      (applyOp_evolves st op (hops op (List.mem_cons_self _ _)) k)
      (ih (applyOp st op) (fun o ho => hops o (List.mem_cons_of_mem op ho)))

/-- Every balance in the accounts table is non-negative. -/
def AllNonneg (st : BankState) : Prop :=
  ∀ k a, lookupA st.accounts k = some a → 0 ≤ a.balance

/-- Every single (successful or failed) ledger operation within the
prompt-validated domain preserves non-negativity of all balances. -/
theorem applyOp_nonneg (st : BankState) (op : LedgerOp) (hv : validOp op = true)
    (h : AllNonneg st) : AllNonneg (applyOp st op) := by
  cases op with
  | create nic d ts =>
    rw [validOp, decide_eq_true_eq] at hv
    cases hu : lookupA st.users nic with
    | none =>
      rw [applyOp, create_account_no_user st nic d ts hu]
      exact h
    | some u =>
      by_cases hr : u.role = customerRole
      · set m := firstFreeFrom (st.accounts.map Prod.fst) st.next_account_number with hm
        have hfresh : lookupA st.accounts (natToStr m) = none := by
          apply lookupA_of_not_mem
          rw [hm]
          exact (firstFreeFrom_spec _ _).1
        have hacc : (applyOp st (.create nic d ts)).accounts =
            st.accounts ++ [(natToStr m,
              { owner_nic := nic, balance := d,
                transactions := if d > 0 then [mkTransaction ts initialDepositT d []] else [],
                created_at := ts })] := by
          rw [applyOp, create_account_some st nic d ts u hu hr m hm]
        intro k a hka
        rw [hacc] at hka
        by_cases hk : k = natToStr m
        · subst hk
          rw [lookupA_append_right _ _ _ hfresh, lookupA, if_pos rfl] at hka
          cases hka
          exact hv
        · cases hl : lookupA st.accounts k with
          | none =>
            rw [lookupA_append_right _ _ _ hl, lookupA,
              if_neg (fun hh => hk hh.symm), lookupA] at hka
            cases hka
          | some a0 =>
            rw [lookupA_append_left _ _ _ _ hl] at hka
            injection hka with hh
            exact hh ▸ h k a0 hl
      · rw [applyOp, create_account_not_customer st nic d ts u hu hr]
        exact h
  | deposit acc amount ts =>
    rw [validOp, decide_eq_true_eq] at hv
    cases hl : lookupA st.accounts acc with
    | none =>
      rw [applyOp, make_deposit_none st acc amount ts hl]
      exact h
    | some a0 =>
      have hacc : (applyOp st (.deposit acc amount ts)).accounts =
          updateA st.accounts acc (fun a =>
            { a with balance := a.balance + amount,
                     transactions := a.transactions ++
                       [mkTransaction ts depositT amount []] }) := by
        rw [applyOp, make_deposit_some st acc amount ts a0 hl]
      intro k a hka
      rw [hacc] at hka
      by_cases hk : k = acc
      · subst hk
        rw [lookupA_updateA_self, hl, Option.map_some'] at hka
        cases hka
        have := h k a0 hl
        simp only
        linarith
      · rw [lookupA_updateA_ne _ _ _ _ hk] at hka
        exact h k a hka
  | withdraw acc amount ts =>
    rw [validOp, decide_eq_true_eq] at hv
    cases hl : lookupA st.accounts acc with
    | none =>
      rw [applyOp, make_withdrawal_none st acc amount ts hl]
      exact h
    | some a0 =>
      by_cases h0 : a0.balance = 0
      · rw [applyOp, make_withdrawal_noFunds st acc amount ts a0 hl h0]
        exact h
      · by_cases hgt : amount > a0.balance
        · rw [applyOp, make_withdrawal_insufficient st acc amount ts a0 hl h0 hgt]
          exact h
        · have hacc : (applyOp st (.withdraw acc amount ts)).accounts =
              updateA st.accounts acc (fun a =>
                { a with balance := a.balance - amount,
                         transactions := a.transactions ++
                           [mkTransaction ts withdrawalT amount []] }) := by
            rw [applyOp, make_withdrawal_success st acc amount ts a0 hl h0 hgt]
          intro k a hka
          rw [hacc] at hka
          by_cases hk : k = acc
          · subst hk
            rw [lookupA_updateA_self, hl, Option.map_some'] at hka
            cases hka
            simp only
            push_neg at hgt
            linarith
          · rw [lookupA_updateA_ne _ _ _ _ hk] at hka
            exact h k a hka
  | transfer src dest amount ts1 ts2 =>
    rw [validOp, decide_eq_true_eq] at hv
    cases hl : lookupA st.accounts src with
    | none =>
      rw [applyOp, transfer_funds_srcNotFound st src dest amount ts1 ts2 hl]
      exact h
    | some sa =>
      by_cases hd : dest = []
      · rw [applyOp, transfer_funds_emptyDest st src dest amount ts1 ts2 sa hl hd]
        exact h
      · by_cases hsd : src = dest
        · rw [applyOp, transfer_funds_sameAccount st src dest amount ts1 ts2 sa hl hd hsd]
          exact h
        · cases hdl : lookupA st.accounts dest with
          | none =>
            rw [applyOp,
              transfer_funds_destNotFound st src dest amount ts1 ts2 sa hl hd hsd hdl]
            exact h
          | some da =>
            by_cases hgt : amount > sa.balance
            · rw [applyOp,
                transfer_funds_insufficient st src dest amount ts1 ts2 sa da hl hd hsd hdl hgt]
              exact h
            · have hacc : (applyOp st (.transfer src dest amount ts1 ts2)).accounts =
                  updateA (updateA st.accounts src (fun a =>
                    { a with balance := a.balance - amount,
                             transactions := a.transactions ++
                               [mkTransaction ts1 transferSentT amount
                                 [(toAccountKey, .str dest)]] }))
                    dest (fun a =>
                    { a with balance := a.balance + amount,
                             transactions := a.transactions ++
                               [mkTransaction ts2 transferReceivedT amount
                                 [(fromAccountKey, .str src)]] }) := by
                rw [applyOp,
                  transfer_funds_success st src dest amount ts1 ts2 sa da hl hd hsd hdl hgt]
              intro k a hka
              rw [hacc] at hka
              by_cases hkd : k = dest
              · subst hkd
                rw [lookupA_updateA_self, lookupA_updateA_ne _ _ _ _ (fun hh => hsd hh.symm),
                  hdl, Option.map_some'] at hka
                cases hka
                have := h k da hdl
                simp only
                linarith
              · rw [lookupA_updateA_ne _ _ _ _ hkd] at hka
                by_cases hks : k = src
                · subst hks
                  rw [lookupA_updateA_self, hl, Option.map_some'] at hka
                  cases hka
                  simp only
                  push_neg at hgt
                  linarith
                · rw [lookupA_updateA_ne _ _ _ _ hks] at hka
                  exact h k a hka
  | interest rate ts =>
    intro k a hka
    rw [applyOp, apply_interest_to_all_accounts] at hka
    simp only [apply_interest_go_spec] at hka
    rw [show (fun (p : Str × AccountData) => (p.1, interestStep rate ts p.2)) =
      (fun (p : Str × AccountData) => (p.1, (fun a => interestStep rate ts a) p.2)) from rfl,
      lookupA_mapValues] at hka
    cases hl : lookupA st.accounts k with
    | none => rw [hl] at hka; cases hka
    | some a0 =>
      rw [hl, Option.map_some'] at hka
      cases hka
      rw [interestStep]
      by_cases hc : interestCredited rate a0 = true
      · rw [if_pos hc]
        rw [interestCredited, Bool.and_eq_true, decide_eq_true_eq, decide_eq_true_eq] at hc
        have := h k a0 hl
        simp only
        linarith [hc.2]
      · rw [if_neg hc]
        exact h k a0 hl

/-! ## Well-formed records and the codec round-trip -/

theorem ratToDecStr_no_pipe (q : ℚ) : ∀ c ∈ ratToDecStr q, c ≠ '|' := by
  intro c hc
  rcases ratToDecStr_chars q c hc with hd | hd | hd
  · have := isDigit_toNat c hd
    exact char_ne_of_toNat_ne (by intro hne; rw [hne] at this; revert this; decide)
  · subst hd; decide
  · subst hd; decide

/-- No character of a dumped well-formed value is the pipe character, so
the JSON blob cannot collide with the field delimiter. -/
theorem jdump_no_pipe (N : Nat) : ∀ (v : JVal) (fw : Nat), wfJFuel fw v = true →
    (jdump v).length ≤ N → ∀ c ∈ jdump v, c ≠ '|' := by
  induction N with
  | zero =>
    intro v fw hwf hlen
    exact absurd hlen (by have := jdump_len_pos v; omega)
  | succ N ih =>
    intro v fw hwf hlen
    cases fw with
    | zero => simp [wfJFuel] at hwf
    | succ fw =>
    cases v with
    | str s =>
      rw [wfJFuel] at hwf
      rw [jdump, escapeStr_eq_self s (fun x hx =>
        ⟨(wfJStr_props s hwf x hx).1, (wfJStr_props s hwf x hx).2.1⟩)]
      intro c hc
      simp only [List.mem_cons, List.mem_append, List.not_mem_nil, or_false,
        List.mem_singleton] at hc
      casesm* _ ∨ _
      all_goals rename_i hx
      all_goals first
        | exact (by subst hx; decide)
        | exact (wfJStr_props s hwf c hx).2.2
    | num q =>
      rw [jdump]
      exact ratToDecStr_no_pipe q
    | bool b =>
      cases b <;>
      · rw [jdump]
        intro c hc
        simp only [List.mem_cons, List.not_mem_nil, or_false] at hc
        casesm* _ ∨ _
        all_goals rename_i hx
        all_goals exact (by subst hx; decide)
    | null =>
      rw [jdump]
      intro c hc
      simp only [List.mem_cons, List.not_mem_nil, or_false] at hc
      casesm* _ ∨ _
      all_goals rename_i hx
      all_goals exact (by subst hx; decide)
    | arr xs =>
      rw [wfJFuel] at hwf
      have hlenarr : (jdump (.arr xs)).length = (jdumpItems xs).length + 2 := by
        rw [jdump]; simp
      have hitems : ∀ (ys : List JVal), ys.all (wfJFuel fw) = true →
          (∀ y ∈ ys, (jdump y).length ≤ N) → ∀ x ∈ jdumpItems ys, x ≠ '|' := by
        intro ys
        induction ys with
        | nil => intro _ _ x hx; rw [jdumpItems] at hx; cases hx
        | cons h t iht =>
          intro hwfys hlys
          rw [List.all_cons, Bool.and_eq_true] at hwfys
          cases t with
          | nil =>
            rw [jdumpItems]
            exact ih h fw hwfys.1 (hlys h (by simp))
          | cons m rr =>
            rw [jdumpItems]
            intro x hx
            simp only [List.mem_cons, List.mem_append, List.not_mem_nil, or_false] at hx
            casesm* _ ∨ _
            all_goals rename_i hz
            all_goals first
              | exact (by subst hz; decide)
              | exact ih h fw hwfys.1 (hlys h (by simp)) x hz
              | exact iht hwfys.2 (fun y hy => hlys y (List.mem_cons_of_mem h hy)) x hz
      rw [jdump]
      intro c hc
      simp only [List.mem_cons, List.mem_append, List.not_mem_nil, or_false,
        List.mem_singleton] at hc
      casesm* _ ∨ _
      all_goals rename_i hx
      all_goals first
        | exact (by subst hx; decide)
        | exact hitems xs hwf (fun y hy => by
            have := jdumpItems_mem_le xs y hy
            omega) c hx
    | obj ms =>
      rw [wfJFuel] at hwf
      have hlenobj : (jdump (.obj ms)).length = (jdumpMembers ms).length + 2 := by
        rw [jdump]; simp
      have hmems : ∀ (ys : List (Str × JVal)),
          ys.all (fun p => wfJStr p.1 && wfJFuel fw p.2) = true →
          (∀ p ∈ ys, (jdump p.2).length ≤ N) → ∀ x ∈ jdumpMembers ys, x ≠ '|' := by
        intro ys
        induction ys with
        | nil => intro _ _ x hx; rw [jdumpMembers] at hx; cases hx
        | cons p t iht =>
          obtain ⟨k, v⟩ := p
          intro hwfys hlys
          rw [List.all_cons, Bool.and_eq_true] at hwfys
          obtain ⟨hwfk, hwfv⟩ : wfJStr k = true ∧ wfJFuel fw v = true := by
            have h1 := hwfys.1
            simp only [Bool.and_eq_true] at h1
            exact h1
          have hesck : escapeStr k = k :=
            escapeStr_eq_self k (fun x hx =>
              ⟨(wfJStr_props k hwfk x hx).1, (wfJStr_props k hwfk x hx).2.1⟩)
          have hkprop : ∀ x ∈ k, x ≠ '|' := fun x hx => (wfJStr_props k hwfk x hx).2.2
          cases t with
          | nil =>
            rw [jdumpMembers, hesck]
            intro x hx
            simp only [List.mem_cons, List.mem_append, List.not_mem_nil, or_false,
              List.mem_singleton] at hx
            casesm* _ ∨ _
            all_goals rename_i hz
            all_goals first
              | exact (by subst hz; decide)
              | exact hkprop x hz
              | exact ih v fw hwfv (hlys (k, v) (by simp)) x hz
          | cons m rr =>
            rw [jdumpMembers, hesck]
            intro x hx
            simp only [List.mem_cons, List.mem_append, List.not_mem_nil, or_false,
              List.mem_singleton] at hx
            casesm* _ ∨ _
            all_goals rename_i hz
            all_goals first
              | exact (by subst hz; decide)
              | exact hkprop x hz
              | exact ih v fw hwfv (hlys (k, v) (by simp)) x hz
              | exact iht hwfys.2 (fun q hq => hlys q (List.mem_cons_of_mem _ hq)) x hz
      rw [jdump]
      intro c hc
      simp only [List.mem_cons, List.mem_append, List.not_mem_nil, or_false,
        List.mem_singleton] at hc
      casesm* _ ∨ _
      all_goals rename_i hx
      all_goals first
        | exact (by subst hx; decide)
        | exact hmems ms hwf (fun p hp => by
            obtain ⟨pk, pv⟩ := p
            have := jdumpMembers_mem_le ms pk pv hp
            simp only
            omega) c hx

/-! ## Well-formed records and the round trip of the record codecs

Well-formedness captures exactly what the codec relies on: every field is
free of the delimiter character `'|'`, owned-account tokens are non-empty
and `';'`-free, and the two ends of the serialized line carry no
whitespace (only there can Python's `strip()` disturb the line; interior
spaces — multi-word names, the `YYYY-MM-DD HH:MM:SS` timestamps — are
split-safe and round-trip unchanged). -/

def wfField (s : Str) : Bool := s.all (fun c => !(c = '|'))

/-- An owned-account token: non-empty and free of both delimiters. -/
def wfToken (s : Str) : Bool :=
  !s.isEmpty && s.all (fun c => !(c = '|') && !(c = ';'))

/-- Is the first character (if any) not whitespace? -/
def headNotWS (s : Str) : Bool :=
  match s with
  | [] => true
  | c :: _ => !c.isWhitespace

/-- Is the last character (if any) not whitespace? -/
def lastNotWS (s : Str) : Bool := headNotWS s.reverse

/-- A well-formed user record: delimiter-free fields, no whitespace at the
two ends of the line (the leading NIC and the trailing owned-accounts
field), and the role/owned-accounts shape the serializer relies on
(customers carry the token list, admins carry none). -/
def wfUser (nic : Str) (u : UserData) : Bool :=
  wfField nic && headNotWS nic && wfField u.name && wfField u.address &&
    wfField u.dob && wfField u.password_hash &&
    (match u.owned_accounts with
     | some l => decide (u.role = customerRole) && l.all wfToken &&
         lastNotWS (joinList l)
     | none => decide (u.role = adminRole))

/-- A well-formed account record: delimiter-free fields, a
non-whitespace-leading account number, a finite-decimal balance and
well-formed transaction values (any fuel at least the nesting depth; the
line always ends in the JSON blob's `']'`). -/
def wfAccount (acc_num : Str) (a : AccountData) (fw : Nat) : Bool :=
  wfField acc_num && headNotWS acc_num && wfField a.owner_nic &&
    wfField a.created_at && isFiniteDec a.balance && a.transactions.all (wfJFuel fw)

theorem wfField_props (s : Str) (h : wfField s = true) : ∀ c ∈ s, c ≠ '|' := by
  intro c hc
  have hx := List.all_eq_true.mp h c hc
  simp only [Bool.not_eq_true', decide_eq_false_iff_not] at hx
  exact hx

theorem wfToken_props (s : Str) (h : wfToken s = true) :
    s ≠ [] ∧ ∀ c ∈ s, c ≠ '|' ∧ c ≠ ';' := by
  simp only [wfToken, Bool.and_eq_true] at h
  constructor
  · intro hnil
    rw [hnil] at h
    exact absurd h.1 (by decide)
  · intro c hc
    have hx := List.all_eq_true.mp h.2 c hc
    simp only [Bool.and_eq_true, Bool.not_eq_true', decide_eq_false_iff_not] at hx
    exact hx

/-- Every character of a joined string is a separator character or a
character of one of the pieces. -/
theorem mem_joinSep (sep : Str) (fields : List Str) :
    ∀ c ∈ joinSep sep fields, c ∈ sep ∨ ∃ f ∈ fields, c ∈ f := by
  induction fields with
  | nil =>
    intro c hc
    rw [joinSep] at hc
    cases hc
  | cons f rest ih =>
    cases rest with
    | nil =>
      intro c hc
      rw [joinSep] at hc
      exact Or.inr ⟨f, List.mem_cons_self f _, hc⟩
    | cons g r =>
      intro c hc
      rw [joinSep] at hc
      simp only [List.mem_append] at hc
      rcases hc with (hc | hc) | hc
      · exact Or.inr ⟨f, List.mem_cons_self f _, hc⟩
      · exact Or.inl hc
      · rcases ih c hc with h | ⟨x, hx, hcx⟩
        · exact Or.inl h
        · exact Or.inr ⟨x, List.mem_cons_of_mem f hx, hcx⟩

/-- `strip` is the identity when the first and last characters are not
whitespace. -/
theorem stripStr_eq_self_of_head_last (s : Str)
    (hh : ∀ c t, s = c :: t → c.isWhitespace = false)
    (hl : ∀ c t, s.reverse = c :: t → c.isWhitespace = false) : stripStr s = s := by
  apply stripStr_eq_self
  · cases hs : s with
    | nil => trivial
    | cons c t => exact hh c t hs
  · cases hs : s.reverse with
    | nil => trivial
    | cons c t => exact hl c t hs

theorem joinData_head_cons (f g : Str) (r : List Str) :
    joinData (f :: g :: r) = f ++ '|' :: '~' :: '|' :: joinData (g :: r) := by
  simp [joinData, joinSep]

/-- The first character of a joined multi-field line is the first
character of the first field, or the delimiter's `'|'` — never
whitespace when the first field starts clean. -/
theorem joinData_head_not_ws (f g : Str) (r : List Str) (h : headNotWS f = true) :
    ∀ c t, joinData (f :: g :: r) = c :: t → c.isWhitespace = false := by
  intro c t heq
  rw [joinData_head_cons] at heq
  cases f with
  | nil =>
    rw [List.nil_append] at heq
    injection heq with hc _
    subst hc
    decide
  | cons c0 r0 =>
    rw [List.cons_append] at heq
    injection heq with hc _
    subst hc
    simp only [headNotWS, Bool.not_eq_true'] at h
    exact h

/-- The last character of a line of the shape `R ++ "|~|" ++ g` is the
last character of `g`, or the delimiter's `'|'` — never whitespace when
`g` ends clean. -/
theorem joinData_last_not_ws (R g line : Str)
    (hline : line = R ++ '|' :: '~' :: '|' :: g) (hg : lastNotWS g = true) :
    ∀ c t, line.reverse = c :: t → c.isWhitespace = false := by
  intro c t heq
  subst hline
  rw [show R ++ '|' :: '~' :: '|' :: g = (R ++ ['|', '~', '|']) ++ g from by simp,
    List.reverse_append] at heq
  cases hgr : g.reverse with
  | nil =>
    rw [hgr, List.nil_append, List.reverse_append,
      show (['|', '~', '|'] : Str).reverse = ['|', '~', '|'] from rfl,
      List.cons_append] at heq
    injection heq with hc _
    subst hc
    decide
  | cons c1 t1 =>
    rw [hgr, List.cons_append] at heq
    injection heq with hc _
    subst hc
    rw [lastNotWS, hgr] at hg
    simp only [headNotWS, Bool.not_eq_true'] at hg
    exact hg

/-- The owned-accounts field round-trips: splitting the joined token list
on `';'` and dropping empty tokens recovers the tokens. -/
theorem splitCh_joinList_filter (l : List Str) (h : l.all wfToken = true) :
    (splitCh ';' (joinList l)).filter (fun a => !a.isEmpty) = l := by
  cases l with
  | nil => rfl
  | cons t r =>
    rw [joinList, splitCh_joinSep ';' (t :: r) (by simp)
      (fun f hf c hc => ((wfToken_props f (List.all_eq_true.mp h f hf)).2 c hc).2)]
    apply List.filter_eq_self.mpr
    intro a ha
    have hne := (wfToken_props a (List.all_eq_true.mp h a ha)).1
    simp [List.isEmpty_iff, hne]

/-- `decode_user(encode_user(u)) == u` for well-formed users. -/
theorem deserialize_serialize_user (nic : Str) (u : UserData) (h : wfUser nic u = true) :
    _deserialize_user (_serialize_user nic u) = some (nic, u) := by
  obtain ⟨nm, ad, db, pw, rl, oa⟩ := u
  simp only [wfUser, Bool.and_eq_true] at h
  obtain ⟨⟨⟨⟨⟨⟨hnic, hnich⟩, hnm⟩, had⟩, hdb⟩, hpw⟩, hrest⟩ := h
  cases oa with
  | none =>
    have hrole : rl = adminRole := of_decide_eq_true hrest
    have hne : ¬(rl = customerRole) := by rw [hrole]; decide
    have hser : _serialize_user nic ⟨nm, ad, db, pw, rl, none⟩ =
        joinData [nic, nm, ad, db, pw, rl, []] := by
      simp [_serialize_user, hne, joinList, joinSep]
    have hfprops : ∀ f ∈ [nic, nm, ad, db, pw, rl, ([] : Str)],
        ∀ c ∈ f, c ≠ '|' := by
      intro f hf
      simp only [List.mem_cons, List.not_mem_nil, or_false] at hf
      rcases hf with rfl | rfl | rfl | rfl | rfl | rfl | rfl
      · exact wfField_props _ hnic
      · exact wfField_props _ hnm
      · exact wfField_props _ had
      · exact wfField_props _ hdb
      · exact wfField_props _ hpw
      · rw [hrole]
        decide
      · intro c hc
        cases hc
    obtain ⟨R, hR⟩ : ∃ R, joinData [nic, nm, ad, db, pw, rl, ([] : Str)] =
        R ++ '|' :: '~' :: '|' :: [] :=
      ⟨nic ++ '|' :: '~' :: '|' :: (nm ++ '|' :: '~' :: '|' :: (ad ++ '|' :: '~' :: '|' ::
        (db ++ '|' :: '~' :: '|' :: (pw ++ '|' :: '~' :: '|' :: rl)))),
       by simp [joinData, joinSep]⟩
    have hstrip : stripStr (joinData [nic, nm, ad, db, pw, rl, []]) =
        joinData [nic, nm, ad, db, pw, rl, []] :=
      stripStr_eq_self_of_head_last _ (joinData_head_not_ws nic nm _ hnich)
        (joinData_last_not_ws R [] _ hR rfl)
    rw [_deserialize_user, hser, hstrip, splitData_joinData _ (by simp) hfprops]
    simp only [if_neg hne, if_pos hrole]
  | some l =>
    have h2 : (decide (rl = customerRole) && l.all wfToken &&
        lastNotWS (joinList l)) = true := hrest
    rw [Bool.and_eq_true, Bool.and_eq_true] at h2
    obtain ⟨⟨hc1, htoks⟩, hlast⟩ := h2
    have hrole : rl = customerRole := of_decide_eq_true hc1
    have hser : _serialize_user nic ⟨nm, ad, db, pw, rl, some l⟩ =
        joinData [nic, nm, ad, db, pw, rl, joinList l] := by
      simp [_serialize_user, hrole]
    have hfprops : ∀ f ∈ [nic, nm, ad, db, pw, rl, joinList l],
        ∀ c ∈ f, c ≠ '|' := by
      intro f hf
      simp only [List.mem_cons, List.not_mem_nil, or_false] at hf
      rcases hf with rfl | rfl | rfl | rfl | rfl | rfl | rfl
      · exact wfField_props _ hnic
      · exact wfField_props _ hnm
      · exact wfField_props _ had
      · exact wfField_props _ hdb
      · exact wfField_props _ hpw
      · rw [hrole]
        decide
      · intro c hc
        rw [joinList] at hc
        rcases mem_joinSep _ _ c hc with hsep | ⟨t, ht, hct⟩
        · simp only [List.mem_cons, List.not_mem_nil, or_false] at hsep
          subst hsep
          decide
        · exact ((wfToken_props t (List.all_eq_true.mp htoks t ht)).2 c hct).1
    obtain ⟨R, hR⟩ : ∃ R, joinData [nic, nm, ad, db, pw, rl, joinList l] =
        R ++ '|' :: '~' :: '|' :: joinList l :=
      ⟨nic ++ '|' :: '~' :: '|' :: (nm ++ '|' :: '~' :: '|' :: (ad ++ '|' :: '~' :: '|' ::
        (db ++ '|' :: '~' :: '|' :: (pw ++ '|' :: '~' :: '|' :: rl)))),
       by simp [joinData, joinSep]⟩
    have hstrip : stripStr (joinData [nic, nm, ad, db, pw, rl, joinList l]) =
        joinData [nic, nm, ad, db, pw, rl, joinList l] :=
      stripStr_eq_self_of_head_last _ (joinData_head_not_ws nic nm _ hnich)
        (joinData_last_not_ws R (joinList l) _ hR hlast)
    rw [_deserialize_user, hser, hstrip, splitData_joinData _ (by simp) hfprops]
    simp only [if_pos hrole, splitCh_joinList_filter l htoks]

/-- The dumped transaction array ends in `']'`. -/
theorem jdump_arr_reverse (xs : List JVal) :
    (jdump (.arr xs)).reverse = ']' :: ('[' :: jdumpItems xs).reverse := by
  rw [jdump]
  simp

/-- `decode_account(encode_account(a)) == a` for well-formed accounts. -/
theorem deserialize_serialize_account (acc_num : Str) (a : AccountData) (fw : Nat)
    (h : wfAccount acc_num a fw = true) :
    _deserialize_account (_serialize_account acc_num a) = some (acc_num, a) := by
  obtain ⟨owner, bal, txs, created⟩ := a
  simp only [wfAccount, Bool.and_eq_true] at h
  obtain ⟨⟨⟨⟨⟨hnum, hnumh⟩, howner⟩, hcreated⟩, hbal⟩, htxs⟩ := h
  have hwfarr : wfJFuel (fw + 1) (.arr txs) = true := htxs
  have hblobpipe : ∀ c ∈ jdump (.arr txs), c ≠ '|' :=
    jdump_no_pipe (jdump (.arr txs)).length (.arr txs) (fw + 1) hwfarr (le_refl _)
  have hjson : json_loads (jdump (.arr txs)) = some (.arr txs) :=
    json_loads_jdump _ _ hwfarr
  have hfloat : parseFloat (ratToDecStr bal) = some bal := parseFloat_ratToDecStr bal hbal
  have hser : _serialize_account acc_num ⟨owner, bal, txs, created⟩ =
      joinData [acc_num, owner, ratToDecStr bal, created, jdump (.arr txs)] := rfl
  obtain ⟨R, hR⟩ : ∃ R,
      joinData [acc_num, owner, ratToDecStr bal, created, jdump (.arr txs)] =
        R ++ '|' :: '~' :: '|' :: jdump (.arr txs) :=
    ⟨acc_num ++ '|' :: '~' :: '|' ::
      (owner ++ '|' :: '~' :: '|' :: (ratToDecStr bal ++ '|' :: '~' :: '|' :: created)),
     by simp [joinData, joinSep]⟩
  have hglast : lastNotWS (jdump (.arr txs)) = true := by
    rw [lastNotWS, jdump_arr_reverse]
    rfl
  have hfprops : ∀ f ∈ [acc_num, owner, ratToDecStr bal, created, jdump (.arr txs)],
      ∀ c ∈ f, c ≠ '|' := by
    intro f hf
    simp only [List.mem_cons, List.not_mem_nil, or_false] at hf
    rcases hf with rfl | rfl | rfl | rfl | rfl
    · exact wfField_props _ hnum
    · exact wfField_props _ howner
    · exact ratToDecStr_no_pipe bal
    · exact wfField_props _ hcreated
    · exact hblobpipe
  have hstrip : stripStr (joinData [acc_num, owner, ratToDecStr bal, created,
      jdump (.arr txs)]) = joinData [acc_num, owner, ratToDecStr bal, created,
      jdump (.arr txs)] :=
    stripStr_eq_self_of_head_last _ (joinData_head_not_ws acc_num owner _ hnumh)
      (joinData_last_not_ws R (jdump (.arr txs)) _ hR hglast)
  rw [_deserialize_account, hser, hstrip,
    splitData_joinData _ (by simp) hfprops]
  simp only [hfloat, hjson, Option.getD_some]

/-! ## Malformed-line handling of the decoders -/

theorem deserialize_user_malformed (line : Str)
    (h : (splitData (stripStr line)).length ≠ 7) : _deserialize_user line = none := by
  rcases hparts : splitData (stripStr line) with _ |
    ⟨x1, _ | ⟨x2, _ | ⟨x3, _ | ⟨x4, _ | ⟨x5, _ | ⟨x6, _ | ⟨x7, _ | ⟨x8, t⟩⟩⟩⟩⟩⟩⟩⟩
  all_goals simp only [_deserialize_user, hparts]
  all_goals rw [hparts] at h
  all_goals simp at h

theorem deserialize_account_malformed (line : Str)
    (h : (splitData (stripStr line)).length ≠ 5) : _deserialize_account line = none := by
  rcases hparts : splitData (stripStr line) with _ |
    ⟨x1, _ | ⟨x2, _ | ⟨x3, _ | ⟨x4, _ | ⟨x5, _ | ⟨x6, t⟩⟩⟩⟩⟩⟩
  all_goals simp only [_deserialize_account, hparts]
  all_goals rw [hparts] at h
  all_goals simp at h

/-! ## The claims -/

/-- C1: for every account and every finite sequence of ledger operations in
the prompt-validated domain, the final balance equals the initial balance
plus the signed sum of the newly recorded transactions (Withdrawal and
Transfer Sent count negative; Initial Deposit, Deposit, Transfer Received
and Interest Applied count positive), and an account created along the way
has balance equal to the signed sum of its entire history. -/
theorem C1_balance_invariant (st : BankState) (ops : List LedgerOp)
    (hops : ∀ op ∈ ops, validOp op = true) (k : Str) :
    (∀ a1, lookupA st.accounts k = none →
      lookupA (applyOps st ops).accounts k = some a1 →
      a1.balance = signedSum a1.transactions) ∧
    (∀ a0 a1, lookupA st.accounts k = some a0 →
      lookupA (applyOps st ops).accounts k = some a1 →
      ∃ new, a1.transactions = a0.transactions ++ new ∧
        a1.balance = a0.balance + signedSum new) := by
  have h := applyOps_evolves ops st hops k
  constructor
  · intro a1 h0 h1
    rw [h0, h1] at h
    exact h
  · intro a0 a1 h0 h1
    rw [h0, h1] at h
    exact h

/-- C2: a transfer of a positive amount is rejected — with both accounts
untouched — on a self-transfer, a missing destination, or an amount above
the source balance; a successful transfer debits the source and credits
the destination by exactly the amount and appends the linked
`Transfer Sent` / `Transfer Received` pair, each referencing the other
account. -/
theorem C2_transfer (st : BankState) (src dest : Str) (amount : ℚ) (ts1 ts2 : Str)
    (sa : AccountData) (hsa : lookupA st.accounts src = some sa) (hpos : 0 < amount) :
    (src = dest → dest ≠ [] →
      transfer_funds st src dest amount ts1 ts2 = (st, .sameAccount)) ∧
    (lookupA st.accounts dest = none → dest ≠ [] → src ≠ dest →
      transfer_funds st src dest amount ts1 ts2 = (st, .destNotFound)) ∧
    (∀ da, lookupA st.accounts dest = some da → dest ≠ [] → src ≠ dest →
      amount > sa.balance →
      transfer_funds st src dest amount ts1 ts2 = (st, .insufficientFunds)) ∧
    (∀ da, lookupA st.accounts dest = some da → dest ≠ [] → src ≠ dest →
      ¬amount > sa.balance →
      (transfer_funds st src dest amount ts1 ts2).2 = .success ∧
      (transfer_funds st src dest amount ts1 ts2).1.users = st.users ∧
      lookupA (transfer_funds st src dest amount ts1 ts2).1.accounts src =
        some { sa with balance := sa.balance - amount,
                       transactions := sa.transactions ++
                         [mkTransaction ts1 transferSentT amount
                           [(toAccountKey, .str dest)]] } ∧
      lookupA (transfer_funds st src dest amount ts1 ts2).1.accounts dest =
        some { da with balance := da.balance + amount,
                       transactions := da.transactions ++
                         [mkTransaction ts2 transferReceivedT amount
                           [(fromAccountKey, .str src)]] } ∧
      (∀ k, k ≠ src → k ≠ dest →
        lookupA (transfer_funds st src dest amount ts1 ts2).1.accounts k =
          lookupA st.accounts k)) := by
  refine ⟨?_, ?_, ?_, ?_⟩
  · intro hsd hd
    exact transfer_funds_sameAccount st src dest amount ts1 ts2 sa hsa hd hsd
  · intro hdn hd hsd
    exact transfer_funds_destNotFound st src dest amount ts1 ts2 sa hsa hd hsd hdn
  · intro da hdd hd hsd hgt
    exact transfer_funds_insufficient st src dest amount ts1 ts2 sa da hsa hd hsd hdd hgt
  · intro da hdd hd hsd hle
    rw [transfer_funds_success st src dest amount ts1 ts2 sa da hsa hd hsd hdd hle]
    refine ⟨rfl, rfl, ?_, ?_, ?_⟩
    · rw [lookupA_updateA_ne _ _ _ _ hsd, lookupA_updateA_self, hsa, Option.map_some']
    · rw [lookupA_updateA_self, lookupA_updateA_ne _ _ _ _ (fun hh => hsd hh.symm),
        hdd, Option.map_some']
    · intro k hks hkd
      rw [lookupA_updateA_ne _ _ _ _ hkd, lookupA_updateA_ne _ _ _ _ hks]

/-- C3: a withdrawal of a positive amount on an existing, funded account
fails with `InsufficientFunds` and mutates nothing when the amount exceeds
the balance; otherwise — including the amount equal to the balance — the
balance drops by exactly the amount and one `Withdrawal` transaction is
appended. -/
theorem C3_withdrawal (st : BankState) (acc : Str) (amount : ℚ) (ts : Str)
    (a0 : AccountData) (h : lookupA st.accounts acc = some a0) (hpos : 0 < amount)
    (hbal : 0 < a0.balance) :
    (amount > a0.balance →
      make_withdrawal st acc amount ts = (st, .insufficientFunds)) ∧
    (¬amount > a0.balance →
      (make_withdrawal st acc amount ts).2 = .success ∧
      lookupA (make_withdrawal st acc amount ts).1.accounts acc =
        some { a0 with balance := a0.balance - amount,
                       transactions := a0.transactions ++
                         [mkTransaction ts withdrawalT amount []] } ∧
      (make_withdrawal st acc amount ts).1.users = st.users ∧
      (∀ k, k ≠ acc → lookupA (make_withdrawal st acc amount ts).1.accounts k =
        lookupA st.accounts k)) := by
  have h0 : a0.balance ≠ 0 := ne_of_gt hbal
  constructor
  · intro hgt
    exact make_withdrawal_insufficient st acc amount ts a0 h h0 hgt
  · intro hle
    rw [make_withdrawal_success st acc amount ts a0 h h0 hle]
    refine ⟨rfl, ?_, rfl, ?_⟩
    · rw [lookupA_updateA_self, h, Option.map_some']
    · intro k hk
      rw [lookupA_updateA_ne _ _ _ _ hk]

/-- C4: allocating a fresh account number never returns a key already in
the accounts table — even when the stale counter collides with one — the
returned number is numerically at least the incoming counter, and the
counter strictly exceeds the returned number and never decreases. -/
theorem C4_counter_uniqueness (accounts : List (Str × AccountData)) (next : Nat) :
    containsKey accounts (generate_account_number accounts next).1 = false ∧
    digitsToNat (generate_account_number accounts next).1 <
      (generate_account_number accounts next).2 ∧
    next ≤ digitsToNat (generate_account_number accounts next).1 ∧
    next < (generate_account_number accounts next).2 := by
  have hspec := firstFreeFrom_spec (accounts.map Prod.fst) next
  refine ⟨?_, ?_, ?_, ?_⟩
  · rw [generate_account_number, containsKey,
      lookupA_of_not_mem _ _ hspec.1, Option.isSome_none]
  · rw [generate_account_number]
    simp only [digitsToNat_natToStr]
    omega
  · rw [generate_account_number]
    simp only [digitsToNat_natToStr]
    exact hspec.2
  · rw [generate_account_number]
    simp only
    omega

/-- C6: the interest pass visits every account: an account with positive
balance and positive rounded interest `round(balance * rate, 2)` is
credited exactly that interest and gets one `Interest Applied` transaction
carrying the rate; an account with non-positive balance — or zero rounded
interest — is left untouched; the returned pair counts the credited
accounts and totals the distributed interest. -/
theorem C6_interest_accrual (st : BankState) (rate : ℚ) (ts : Str) :
    ((apply_interest_to_all_accounts st rate ts).1.users = st.users) ∧
    ((apply_interest_to_all_accounts st rate ts).1.accounts =
      st.accounts.map (fun p => (p.1, interestStep rate ts p.2))) ∧
    (∀ k a, lookupA st.accounts k = some a →
      (0 < a.balance → 0 < round2 (a.balance * rate) →
        lookupA (apply_interest_to_all_accounts st rate ts).1.accounts k =
          some { a with balance := a.balance + round2 (a.balance * rate),
                        transactions := a.transactions ++
                          [mkTransaction ts interestAppliedT
                            (round2 (a.balance * rate)) [(rateKey, .num rate)]] }) ∧
      (a.balance ≤ 0 →
        lookupA (apply_interest_to_all_accounts st rate ts).1.accounts k = some a) ∧
      (round2 (a.balance * rate) ≤ 0 →
        lookupA (apply_interest_to_all_accounts st rate ts).1.accounts k = some a)) ∧
    ((apply_interest_to_all_accounts st rate ts).2.1 =
      (st.accounts.filter (fun p => interestCredited rate p.2)).length) ∧
    ((apply_interest_to_all_accounts st rate ts).2.2 =
      ((st.accounts.filter (fun p => interestCredited rate p.2)).map
        (fun p => round2 (p.2.balance * rate))).sum) := by
  have hacc : (apply_interest_to_all_accounts st rate ts).1.accounts =
      st.accounts.map (fun p => (p.1, interestStep rate ts p.2)) := by
    rw [apply_interest_to_all_accounts]
    simp only [apply_interest_go_spec]
  have hlook : ∀ k, lookupA (apply_interest_to_all_accounts st rate ts).1.accounts k =
      (lookupA st.accounts k).map (fun a => interestStep rate ts a) := by
    intro k
    rw [hacc, show (fun (p : Str × AccountData) => (p.1, interestStep rate ts p.2)) =
      (fun (p : Str × AccountData) => (p.1, (fun a => interestStep rate ts a) p.2)) from rfl,
      lookupA_mapValues]
  refine ⟨rfl, hacc, ?_, ?_, ?_⟩
  · intro k a hka
    refine ⟨?_, ?_, ?_⟩
    · intro hb hi
      rw [hlook, hka, Option.map_some', interestStep,
        if_pos (by rw [interestCredited]; simp [hb, hi])]
    · intro hb
      rw [hlook, hka, Option.map_some', interestStep,
        if_neg (by rw [interestCredited]; simp; intro hb2; linarith)]
    · intro hi
      rw [hlook, hka, Option.map_some', interestStep,
        if_neg (by rw [interestCredited]; simp; intro _; linarith)]
  · rw [apply_interest_to_all_accounts]
    simp only [apply_interest_go_spec]
  · rw [apply_interest_to_all_accounts]
    simp only [apply_interest_go_spec]

/-- C7: `_deserialize_user` yields `None` — rather than an exception — on
any line without exactly 7 fields and on any role other than exactly
`"customer"` or `"admin"`; a customer line's owned-accounts field decodes
to its non-empty tokens (an empty field to the empty list); an admin line
decodes with a non-empty owned-accounts field ignored. -/
theorem C7_deserialize_user (line : Str) :
    ((splitData (stripStr line)).length ≠ 7 → _deserialize_user line = none) ∧
    (∀ nic nm ad db pw role owned,
      splitData (stripStr line) = [nic, nm, ad, db, pw, role, owned] →
      (role ≠ customerRole → role ≠ adminRole → _deserialize_user line = none) ∧
      (role = customerRole → _deserialize_user line =
        some (nic, ⟨nm, ad, db, pw, role,
          some ((splitCh ';' owned).filter (fun a => !a.isEmpty))⟩)) ∧
      (role = customerRole → owned = [] → _deserialize_user line =
        some (nic, ⟨nm, ad, db, pw, role, some []⟩)) ∧
      (role = adminRole → _deserialize_user line =
        some (nic, ⟨nm, ad, db, pw, role, none⟩))) := by
  constructor
  · exact deserialize_user_malformed line
  · intro nic nm ad db pw role owned hparts
    refine ⟨?_, ?_, ?_, ?_⟩
    · intro hc hA
      simp only [_deserialize_user, hparts]
      rw [if_neg hc, if_neg hA]
    · intro hc
      simp only [_deserialize_user, hparts]
      rw [if_pos hc]
    · intro hc he
      subst he
      simp only [_deserialize_user, hparts]
      rw [if_pos hc]
      rfl
    · intro hA
      have hc : role ≠ customerRole := by rw [hA]; decide
      simp only [_deserialize_user, hparts]
      rw [if_neg hc, if_pos hA]

/-- C8: `_deserialize_account` yields `None` on any line without exactly 5
fields; with 5 fields it always decodes, defaulting the balance to `0.0`
when the balance field fails to parse as a decimal and the transaction
list to `[]` when the blob fails to parse or is not a list. -/
theorem C8_deserialize_account (line : Str) :
    ((splitData (stripStr line)).length ≠ 5 → _deserialize_account line = none) ∧
    (∀ acc owner bals created txblob,
      splitData (stripStr line) = [acc, owner, bals, created, txblob] →
      ∃ rec, _deserialize_account line = some (acc, rec) ∧
        rec.owner_nic = owner ∧ rec.created_at = created ∧
        (parseFloat bals = none → rec.balance = 0) ∧
        (∀ q, parseFloat bals = some q → rec.balance = q) ∧
        (json_loads txblob = none → rec.transactions = []) ∧
        (∀ l, json_loads txblob = some (.arr l) → rec.transactions = l) ∧
        (∀ v, json_loads txblob = some v → (∀ l, v ≠ .arr l) →
          rec.transactions = [])) := by
  constructor
  · exact deserialize_account_malformed line
  · intro acc owner bals created txblob hparts
    refine ⟨⟨owner, (parseFloat bals).getD 0,
      (match json_loads txblob with | some (.arr l) => l | _ => []), created⟩,
      ?_, rfl, rfl, ?_, ?_, ?_, ?_, ?_⟩
    · simp only [_deserialize_account, hparts]
    · intro hn
      simp only [hn, Option.getD_none]
    · intro q hq
      simp only [hq, Option.getD_some]
    · intro hn
      simp only [hn]
    · intro l hl
      simp only [hl]
    · intro v hv hne
      simp only [hv]
      cases v with
      | arr l => exact absurd rfl (hne l)
      | str s => rfl
      | num q => rfl
      | bool b => rfl
      | null => rfl
      | obj ms => rfl

/-- C5: the record codecs round-trip on every well-formed record:
`decode_user(encode_user(u)) == u` for customers (with empty or
multi-entry owned-accounts lists) and admins, and
`decode_account(encode_account(a)) == a` for accounts with any number of
transactions. -/
theorem C5_codec_round_trip (nic : Str) (u : UserData) (acc_num : Str) (a : AccountData)
    (fw : Nat) (hu : wfUser nic u = true) (ha : wfAccount acc_num a fw = true) :
    _deserialize_user (_serialize_user nic u) = some (nic, u) ∧
    _deserialize_account (_serialize_account acc_num a) = some (acc_num, a) :=
  ⟨deserialize_serialize_user nic u hu, deserialize_serialize_account acc_num a fw ha⟩

/-- C9: non-negativity of all balances is an invariant of every ledger
operation in the prompt-validated domain, whether the operation succeeds
or is rejected. -/
theorem C9_nonneg_invariant (st : BankState) (op : LedgerOp) (hv : validOp op = true)
    (h : AllNonneg st) : AllNonneg (applyOp st op) :=
  applyOp_nonneg st op hv h

/-- C10: a deposit or withdrawal on one account is frame-local: the users
table and the account counter are untouched, the account keeps its owner
and creation timestamp, and every other account entry is exactly as
before. -/
theorem C10_frame (st : BankState) (acc : Str) (amount : ℚ) (ts : Str)
    (a0 : AccountData) (h : lookupA st.accounts acc = some a0) :
    ((make_deposit st acc amount ts).1.users = st.users ∧
     (make_deposit st acc amount ts).1.next_account_number = st.next_account_number ∧
     (∀ a', lookupA (make_deposit st acc amount ts).1.accounts acc = some a' →
        a'.owner_nic = a0.owner_nic ∧ a'.created_at = a0.created_at) ∧
     (∀ k, k ≠ acc → lookupA (make_deposit st acc amount ts).1.accounts k =
        lookupA st.accounts k)) ∧
    ((make_withdrawal st acc amount ts).1.users = st.users ∧
     (make_withdrawal st acc amount ts).1.next_account_number = st.next_account_number ∧
     (∀ a', lookupA (make_withdrawal st acc amount ts).1.accounts acc = some a' →
        a'.owner_nic = a0.owner_nic ∧ a'.created_at = a0.created_at) ∧
     (∀ k, k ≠ acc → lookupA (make_withdrawal st acc amount ts).1.accounts k =
        lookupA st.accounts k)) := by
  constructor
  · rw [make_deposit_some st acc amount ts a0 h]
    refine ⟨rfl, rfl, ?_, ?_⟩
    · intro a' ha'
      rw [lookupA_updateA_self, h, Option.map_some'] at ha'
      injection ha' with hh
      rw [← hh]
      exact ⟨rfl, rfl⟩
    · intro k hk
      exact lookupA_updateA_ne _ _ _ _ hk
  · by_cases h0 : a0.balance = 0
    · rw [make_withdrawal_noFunds st acc amount ts a0 h h0]
      refine ⟨rfl, rfl, ?_, fun k _ => rfl⟩
      intro a' ha'
      rw [h] at ha'
      injection ha' with hh
      rw [← hh]
      exact ⟨rfl, rfl⟩
    · by_cases hgt : amount > a0.balance
      · rw [make_withdrawal_insufficient st acc amount ts a0 h h0 hgt]
        refine ⟨rfl, rfl, ?_, fun k _ => rfl⟩
        intro a' ha'
        rw [h] at ha'
        injection ha' with hh
        rw [← hh]
        exact ⟨rfl, rfl⟩
      · rw [make_withdrawal_success st acc amount ts a0 h h0 hgt]
        refine ⟨rfl, rfl, ?_, ?_⟩
        · intro a' ha'
          rw [lookupA_updateA_self, h, Option.map_some'] at ha'
          injection ha' with hh
          rw [← hh]
          exact ⟨rfl, rfl⟩
        · intro k hk
          exact lookupA_updateA_ne _ _ _ _ hk

/-! ## Concrete witnesses -/

def wTs : Str := ['t']

def wNicC : Str := ['n', '1']

def wAcc1 : Str := ['1', '0', '1']

def wAcc2 : Str := ['1', '0', '2']

def wAcc9 : Str := ['9']

def wAcctA : AccountData :=
  { owner_nic := ['n', '1'], balance := 10, transactions := [], created_at := ['t'] }

def wAcctB : AccountData :=
  { owner_nic := ['n', '2'], balance := 3, transactions := [], created_at := ['t'] }

def wState : BankState :=
  { users := [], accounts := [(wAcc1, wAcctA), (wAcc2, wAcctB)], next_account_number := 103 }

def wOps : List LedgerOp := [.deposit wAcc1 5 wTs]

def wUserC : UserData :=
  { name := "Ana Lee".toList, address := "1 Main St".toList, dob := ['d'],
    password_hash := ['p'], role := customerRole,
    owned_accounts := some [['1', '0', '1'], ['1', '0', '2']] }

def wTimestamp : Str := "2024-01-01 00:00:00".toList

def wAcctC : AccountData :=
  { owner_nic := ['n', '1'], balance := 10,
    transactions := [mkTransaction wTimestamp depositT 5 []],
    created_at := wTimestamp }

theorem C1_balance_invariant_witness :
    (∀ op ∈ wOps, validOp op = true) ∧
    (∀ a0 a1, lookupA wState.accounts wAcc1 = some a0 →
      lookupA (applyOps wState wOps).accounts wAcc1 = some a1 →
      ∃ new, a1.transactions = a0.transactions ++ new ∧
        a1.balance = a0.balance + signedSum new) :=
  ⟨by decide, (C1_balance_invariant wState wOps (by decide) wAcc1).2⟩

theorem C2_transfer_witness :
    lookupA wState.accounts wAcc1 = some wAcctA ∧ (0 : ℚ) < 5 ∧
    (lookupA wState.accounts wAcc9 = none → wAcc9 ≠ [] → wAcc1 ≠ wAcc9 →
      transfer_funds wState wAcc1 wAcc9 5 wTs wTs = (wState, .destNotFound)) :=
  ⟨rfl, by decide, (C2_transfer wState wAcc1 wAcc9 5 wTs wTs wAcctA rfl (by decide)).2.1⟩

theorem C3_withdrawal_witness :
    lookupA wState.accounts wAcc1 = some wAcctA ∧ (0 : ℚ) < 5 ∧
    (0 : ℚ) < wAcctA.balance ∧
    ((5 : ℚ) > wAcctA.balance →
      make_withdrawal wState wAcc1 5 wTs = (wState, .insufficientFunds)) :=
  ⟨rfl, by decide, by decide,
    (C3_withdrawal wState wAcc1 5 wTs wAcctA rfl (by decide) (by decide)).1⟩

theorem C5_codec_round_trip_witness :
    wfUser wNicC wUserC = true ∧ wfAccount wAcc1 wAcctC 2 = true ∧
    _deserialize_user (_serialize_user wNicC wUserC) = some (wNicC, wUserC) ∧
    _deserialize_account (_serialize_account wAcc1 wAcctC) = some (wAcc1, wAcctC) :=
  ⟨by decide, by decide,
    (C5_codec_round_trip wNicC wUserC wAcc1 wAcctC 2 (by decide) (by decide)).1,
    (C5_codec_round_trip wNicC wUserC wAcc1 wAcctC 2 (by decide) (by decide)).2⟩

theorem C9_nonneg_invariant_witness :
    validOp (.deposit wAcc1 5 wTs) = true ∧
    AllNonneg (applyOp wState (.deposit wAcc1 5 wTs)) :=
  ⟨by decide, C9_nonneg_invariant wState (.deposit wAcc1 5 wTs) (by decide) (by
    intro k a hka
    simp only [wState] at hka
    rw [lookupA] at hka
    by_cases h1 : wAcc1 = k
    · rw [if_pos h1] at hka
      injection hka with hh
      subst hh
      decide
    · rw [if_neg h1, lookupA] at hka
      by_cases h2 : wAcc2 = k
      · rw [if_pos h2] at hka
        injection hka with hh
        subst hh
        decide
      · rw [if_neg h2, lookupA] at hka
        cases hka)⟩

theorem C10_frame_witness :
    lookupA wState.accounts wAcc2 = some wAcctB ∧
    (make_deposit wState wAcc2 5 wTs).1.users = wState.users :=
  ⟨rfl, ((C10_frame wState wAcc2 5 wTs wAcctB rfl).1).1⟩
